import Mathlib

/-!
Verification development for the cactus FFI textual protocol layer
(`ffi_utils.h`): shallow embedding of the message/tool/option decoders and
the response encoder over `List Char`, with C++ `std::string::find` results
modelled as `Option Nat` (`none` is `npos`), `size_t` wraparound made
explicit, and every scanning loop given explicit fuel so that both
termination and non-termination are provable facts.
-/

deriving instance DecidableEq for Except

namespace CactusFFI

/-- Index of the first occurrence of character `c` in `s` (C++
`std::string::find(char)`); `none` models `npos`. -/
def charIdx (c : Char) : List Char → Option Nat
  | [] => none
  | a :: rest => if a = c then some 0 else Option.map (· + 1) (charIdx c rest)

/-- C++ `json.find(c, i)`: first occurrence of `c` at an index `≥ i`.
A match starting before `i` is not reported, exactly as in C++. -/
def charIdxFrom (s : List Char) (c : Char) (i : Nat) : Option Nat :=
  Option.map (· + i) (charIdx c (s.drop i))

/-- Whether `pat` is a (fully contained) prefix of `s`. -/
def strPrefixOf : List Char → List Char → Bool
  | [], _ => true
  | _ :: _, [] => false
  | p :: ps, b :: bs => p = b && strPrefixOf ps bs

/-- Index of the first occurrence of the (non-empty) pattern `pat` in `s`
(C++ `std::string::find(const char*)`); the match must fit inside `s`. -/
def strIdx (pat : List Char) : List Char → Option Nat
  | [] => none
  | a :: rest =>
    if strPrefixOf pat (a :: rest) then some 0
    else Option.map (· + 1) (strIdx pat rest)

/-- C++ `json.find(pat, i)`: first occurrence of `pat` starting at `≥ i`. -/
def strIdxFrom (s : List Char) (pat : List Char) (i : Nat) : Option Nat :=
  Option.map (· + i) (strIdx pat (s.drop i))

/-- C++ `find(...) + 1` on a `size_t`: when `find` fails it returns
`npos = 2^64 - 1`, and `npos + 1` wraps to `0`.  This models that sum
exactly: `none ↦ 0`, `some i ↦ i + 1`. -/
def wrapInc : Option Nat → Nat
  | none => 0
  | some i => i + 1

/-- C++ `s.substr(start, stop - start)` where `stop` came from a `find`
(so `stop = none` is `npos`, giving a huge count that `substr` clamps to
the end of the string).  Every call site has `start ≤ s.length`, so the
out-of-range exception of `substr` is unreachable and the clamping
`take`/`drop` model is exact. -/
def substrTo (s : List Char) (start : Nat) (stop : Option Nat) : List Char :=
  match stop with
  | none => s.drop start
  | some e => (s.drop start).take (e - start)

/-- Index of the last occurrence of `c` in `s` (C++ `std::string::rfind`). -/
def rfindC (c : Char) : List Char → Option Nat
  | [] => none
  | a :: rest =>
    match rfindC c rest with
    | some i => some (i + 1)
    | none => if a = c then some 0 else none

/-- Failure modes of the embedded decoders. `malformedInput` is the
`std::runtime_error` thrown by the message decoder; `numericParseFailure`
covers the exceptions of `std::stof`/`std::stoul`; `oobRead` marks an
`operator[]` access at an out-of-range index (undefined behaviour in the
source); `outOfFuel` marks a scanning loop that exceeded its fuel budget. -/
inductive Err where
  | malformedInput
  | numericParseFailure
  | oobRead
  | outOfFuel
deriving DecidableEq, Repr

/-- One chat turn (`cactus::engine::ChatMessage`): a role and a content. -/
structure ChatMessage where
  role : List Char
  content : List Char
deriving DecidableEq, Repr

/-- One tool descriptor (`cactus::ffi::ToolFunction`).  The source stores
the parameters in an `unordered_map` that only ever receives the single
key `"schema"`; `parameters` is that at-most-one entry. -/
structure ToolFunction where
  name : List Char
  description : List Char
  parameters : Option (List Char)
deriving DecidableEq, Repr

/-- The five out-parameters of `parse_options_json`, gathered in one
record.  `temperature` and `top_p` are the `float` outputs, modelled as
rationals. -/
structure SamplingOptions where
  temperature : ℚ
  top_p : ℚ
  top_k : Nat
  max_tokens : Nat
  stop_sequences : List (List Char)
deriving DecidableEq, Repr

/-- The literal key `"role"` searched by the message decoder. -/
def roleKey : List Char := ("\"role\"").data

/-- The literal key `"content"` searched by the message decoder. -/
def contentKey : List Char := ("\"content\"").data

/-- The content-end scanning loop of `parse_messages_json`: starting at
`ce`, repeatedly find the next `'"'` and skip it when the character just
before it is a backslash.  `json[content_end - 1]` is a raw `operator[]`
access: when the quote is found at index `0`, the C++ index is
`0 - 1 = 2^64 - 1` (out of range), modelled as `Err.oobRead`.  The result
`none` models the loop leaving `content_end = npos`. -/
def contentEndLoop (json : List Char) : Nat → Nat → Except Err (Option Nat)
  | 0, _ => Except.error Err.outOfFuel
  | fuel + 1, ce =>
    if ce < json.length then
      match charIdxFrom json '"' ce with
      | none => Except.ok none
      | some q =>
        if q = 0 then Except.error Err.oobRead
        else
          match json[q - 1]? with
          | none => Except.error Err.oobRead
          | some ch =>
            if ch = '\\' then contentEndLoop json fuel (q + 1) else Except.ok (some q)
    else Except.ok (some ce)

/-- One escape-resolution pass of `parse_messages_json`: repeatedly find
the two-character sequence backslash-`x` from `ep` on, replace it by the
single character `y`, and resume searching just after the inserted
character (`escape_pos += 1`), so substituted output is never re-scanned. -/
def replLoopE (x y : Char) : Nat → List Char → Nat → Except Err (List Char)
  | 0, _, _ => Except.error Err.outOfFuel
  | fuel + 1, content, ep =>
    match strIdxFrom content [ '\\', x ] ep with
    | none => Except.ok content
    | some p => replLoopE x y fuel (content.take p ++ y :: content.drop (p + 2)) (p + 1)

/-- Structural form of one escape-resolution pass: a single left-to-right
scan replacing each non-overlapping backslash-`x` pair by `y`.  Proved
equivalent to the index-based loop `replLoopE` below. -/
def replaceEsc (x y : Char) : List Char → List Char
  | [] => []
  | [a] => [a]
  | a :: b :: rest =>
    if a = '\\' && b = x then y :: replaceEsc x y rest
    else a :: replaceEsc x y (b :: rest)

/-- The two escape passes of `parse_messages_json`, in source order:
first every backslash-`n` becomes a newline, then every
backslash-quote becomes a quote. -/
def unescapeContentE (c : List Char) : Except Err (List Char) :=
  match replLoopE 'n' '\n' (c.length + 1) c 0 with
  | Except.error e => Except.error e
  | Except.ok c1 => replLoopE '"' '"' (c1.length + 1) c1 0

/-- Pure form of the two escape passes, in the same order. -/
def unescapePure (c : List Char) : List Char :=
  replaceEsc '"' '"' (replaceEsc 'n' '\n' c)

/-- The object loop of `parse_messages_json`.  `posOpt` is the most recent
`find('{', ...)` result; `none` is `npos`, ending the loop.  Inside one
iteration: locate `"role"`, its quoted value, `"content"`, its quoted
value (via `contentEndLoop`), resolve escapes, push the message, and jump
to the next `'{'` after the content's closing quote.  The `+ 1` in
`find('"', role_pos + 6) + 1` (and the content analogue) is `wrapInc`:
on a failed `find` the `size_t` sum wraps to `0`. -/
def msgLoop (json : List Char) : Nat → Option Nat → List ChatMessage → Except Err (List ChatMessage)
  | _, none, acc => Except.ok acc
  | 0, some _, _ => Except.error Err.outOfFuel
  | fuel + 1, some pos, acc =>
    match strIdxFrom json roleKey pos with
    | none => Except.ok acc
    | some rolePos =>
      let roleStart := wrapInc (charIdxFrom json '"' (rolePos + 6))
      let roleEnd := charIdxFrom json '"' roleStart
      match (match roleEnd with
             | none => none
             | some re => strIdxFrom json contentKey re) with
      | none => Except.ok acc
      | some contentPos =>
        let contentStart := wrapInc (charIdxFrom json '"' (contentPos + 9))
        match contentEndLoop json (json.length + 2) contentStart with
        | Except.error e => Except.error e
        | Except.ok ceOpt =>
          match unescapeContentE (substrTo json contentStart ceOpt) with
          | Except.error e => Except.error e
          | Except.ok content =>
            msgLoop json fuel
              (match ceOpt with
               | none => none
               | some ce => charIdxFrom json '{' ce)
              (acc ++ [⟨substrTo json roleStart roleEnd, content⟩])

/-- `parse_messages_json` with an explicit fuel budget for its object
loop (the loop is not bounded by the input length, see the divergence
theorems). -/
def parse_messages_json_fuel (fuel : Nat) (json : List Char) : Except Err (List ChatMessage) :=
  match charIdxFrom json '[' 0 with
  | none => Except.error Err.malformedInput
  | some p => msgLoop json fuel (charIdxFrom json '{' p) []

/-- The message decoder at the default budget of one iteration per input
character, enough for every input whose object loop makes progress. -/
def parse_messages_json (json : List Char) : Except Err (List ChatMessage) :=
  parse_messages_json_fuel (json.length + 1) json

/-- The literal marker `"function"` searched by the tool decoder. -/
def funcKey : List Char := ("\"function\"").data

/-- The literal key `"name"` searched by the tool decoder. -/
def nameKey : List Char := ("\"name\"").data

/-- The literal key `"description"` searched by the tool decoder. -/
def descKey : List Char := ("\"description\"").data

/-- The literal key `"parameters"` searched by the tool decoder. -/
def paramsKey : List Char := ("\"parameters\"").data

/-- The balanced-brace scan shared by `parse_tools_json` and
`parse_function_calls_from_response`: starting with depth `bc` at index
`pe`, step while the index is in range and the depth is positive,
incrementing on `'{'` and decrementing on `'}'`.  Returns the final index
and depth. -/
def braceScan (json : List Char) : Nat → Nat → Nat → Except Err (Nat × Nat)
  | 0, _, _ => Except.error Err.outOfFuel
  | fuel + 1, bc, pe =>
    if bc = 0 then Except.ok (pe, bc)
    else
      match json[pe]? with
      | none => Except.ok (pe, bc)
      | some c =>
        braceScan json fuel (if c = '{' then bc + 1 else if c = '}' then bc - 1 else bc) (pe + 1)

/-- The record loop of `parse_tools_json`.  `posOpt` is the most recent
`find("\"function\"", ...)` result.  The `"name"`, `"description"` and
`"parameters"` searches all start at `pos` (not bounded by the current
wrapper object), a missing field leaves the empty string (or no schema),
and the next marker search resumes from the position where `"name"` was
found — `npos` when it was not, ending the loop. -/
def toolsLoop (json : List Char) : Nat → Option Nat → List ToolFunction → Except Err (List ToolFunction)
  | _, none, acc => Except.ok acc
  | 0, some _, _ => Except.error Err.outOfFuel
  | fuel + 1, some pos, acc =>
    let namePos := strIdxFrom json nameKey pos
    let name :=
      match namePos with
      | none => []
      | some np =>
        let nameStart := wrapInc (charIdxFrom json '"' (np + 6))
        substrTo json nameStart (charIdxFrom json '"' nameStart)
    let descr :=
      match strIdxFrom json descKey pos with
      | none => []
      | some dp =>
        let descStart := wrapInc (charIdxFrom json '"' (dp + 13))
        substrTo json descStart (charIdxFrom json '"' descStart)
    match (match strIdxFrom json paramsKey pos with
           | none => Except.ok none
           | some pp =>
             match charIdxFrom json '{' pp with
             | none => Except.ok none
             | some ps =>
               match braceScan json (json.length + 2) 1 (ps + 1) with
               | Except.error e => Except.error e
               | Except.ok pr => Except.ok (some (substrTo json ps (some pr.1)))) with
    | Except.error e => Except.error e
    | Except.ok params =>
      toolsLoop json fuel
        (match namePos with
         | none => none
         | some np => strIdxFrom json funcKey np)
        (acc ++ [⟨name, descr, params⟩])

/-- `parse_tools_json` with an explicit fuel budget. -/
def parse_tools_json_fuel (fuel : Nat) (json : List Char) : Except Err (List ToolFunction) :=
  if json = [] then Except.ok []
  else
    match charIdxFrom json '[' 0 with
    | none => Except.ok []
    | some p => toolsLoop json fuel (strIdxFrom json funcKey p) []

/-- The tool decoder at the default budget, proved sufficient for every
input. -/
def parse_tools_json (json : List Char) : Except Err (List ToolFunction) :=
  parse_tools_json_fuel (json.length + 1) json

/-- The whitespace set of C `isspace`, used by `std::stof`/`std::stoul`. -/
def isSpaceC (c : Char) : Bool :=
  c = ' ' || c = '\t' || c = '\n' || c = '\r' || c = Char.ofNat 11 || c = Char.ofNat 12

/-- Numeric value of a decimal digit character. -/
def digitVal (c : Char) : Nat := c.toNat - 48

/-- Decimal value of a digit string. -/
def digitsToNat (ds : List Char) : Nat := ds.foldl (fun acc c => 10 * acc + digitVal c) 0

/-- Scanning phase of `std::stof` on the plain-decimal subset the options
decoder receives: skip whitespace, optional sign, digits with an optional
fractional part, reading as many valid characters as possible.  No digit
at all is `std::invalid_argument` (`none` here).  (Exponent, hexadecimal
and inf/nan forms of `stof` are outside the decoder's documented input
language.) -/
def stofScan (s : List Char) : Option (Bool × List Char × List Char) :=
  let s1 := s.dropWhile isSpaceC
  let sgn : Bool × List Char :=
    match s1 with
    | '-' :: r => (true, r)
    | '+' :: r => (false, r)
    | _ => (false, s1)
  let ds := sgn.2.takeWhile Char.isDigit
  let s3 := sgn.2.dropWhile Char.isDigit
  let fs :=
    match s3 with
    | '.' :: r => r.takeWhile Char.isDigit
    | _ => []
  if ds.isEmpty && fs.isEmpty then none else some (sgn.1, ds, fs)

/-- The rational value of the scanned parts. -/
def stofVal (neg : Bool) (ds fs : List Char) : ℚ :=
  (if neg then (-1 : ℚ) else 1)
  * ((digitsToNat ds : ℚ) + (digitsToNat fs : ℚ) / (10 : ℚ) ^ fs.length)

/-- Model of `std::stof` assembled from the scan and the value. -/
def stofE (s : List Char) : Except Err ℚ :=
  match stofScan s with
  | none => Except.error Err.numericParseFailure
  | some (neg, ds, fs) => Except.ok (stofVal neg ds fs)

/-- Model of `std::stoul`: skip whitespace, optional sign (a minus sign
wraps modulo `2^64`), then at least one digit; no digit is
`std::invalid_argument` and overflow is `std::out_of_range`, both fatal
to the options decode and modelled as `numericParseFailure`. -/
def stoulE (s : List Char) : Except Err Nat :=
  let s1 := s.dropWhile isSpaceC
  let sgn : Bool × List Char :=
    match s1 with
    | '-' :: r => (true, r)
    | '+' :: r => (false, r)
    | _ => (false, s1)
  let ds := sgn.2.takeWhile Char.isDigit
  if ds.isEmpty then Except.error Err.numericParseFailure
  else
    let n := digitsToNat ds
    if n < 2 ^ 64 then
      Except.ok (if sgn.1 then (2 ^ 64 - n % 2 ^ 64) % 2 ^ 64 else n)
    else Except.error Err.numericParseFailure

/-- The literal key `"temperature"`. -/
def tempKey : List Char := ("\"temperature\"").data

/-- The literal key `"top_p"`. -/
def topPKey : List Char := ("\"top_p\"").data

/-- The literal key `"top_k"`. -/
def topKKey : List Char := ("\"top_k\"").data

/-- The literal key `"max_tokens"`. -/
def maxTokKey : List Char := ("\"max_tokens\"").data

/-- The literal key `"stop_sequences"`. -/
def stopSeqKey : List Char := ("\"stop_sequences\"").data

/-- One float field of `parse_options_json`: keep the default unless the
key occurs, else `stof` the text after the first `':'` at or after the
key (`find(':', pos) + 1` wraps to `0` on failure, via `wrapInc`). -/
def floatField (json : List Char) (key : List Char) (dflt : ℚ) : Except Err ℚ :=
  match strIdxFrom json key 0 with
  | none => Except.ok dflt
  | some p => stofE (json.drop (wrapInc (charIdxFrom json ':' p)))

/-- One unsigned field of `parse_options_json`, as `floatField` but with
`stoul`. -/
def natField (json : List Char) (key : List Char) (dflt : Nat) : Except Err Nat :=
  match strIdxFrom json key 0 with
  | none => Except.ok dflt
  | some p => stoulE (json.drop (wrapInc (charIdxFrom json ':' p)))

/-- The `size_t` comparison `seq_pos < end_pos` where `end_pos` may be
`npos` (`none` here, value `2^64 - 1`): every actual index is below
`npos`, so the comparison is then true. -/
def sizeLt (a : Nat) (b : Option Nat) : Bool :=
  match b with
  | none => true
  | some e => a < e

/-- The stop-sequence collection loop of `parse_options_json`: while
`seq_pos` is a found quote before `end_pos`, take the text up to the next
quote (pushing only when that next quote exists), then look for the quote
after that.  When the next quote does not exist, `seq_end + 1` wraps to
`0` and the search restarts at the beginning of the input — the loop is
not bounded by the input length (see the divergence theorem). -/
def stopLoop (json : List Char) (endPos : Option Nat) : Nat → Option Nat → List (List Char) → Except Err (List (List Char))
  | _, none, acc => Except.ok acc
  | 0, some _, _ => Except.error Err.outOfFuel
  | fuel + 1, some sp, acc =>
    if sizeLt sp endPos then
      match charIdxFrom json '"' (sp + 1) with
      | some se =>
        stopLoop json endPos fuel (charIdxFrom json '"' (se + 1))
          (acc ++ [substrTo json (sp + 1) (some se)])
      | none => stopLoop json endPos fuel (charIdxFrom json '"' 0) acc
    else Except.ok acc

/-- The `stop_sequences` field of `parse_options_json`: empty unless the
key and a following `'['` occur; then collect quoted strings between the
bracket and the first `']'` after it. -/
def stopField (fuel : Nat) (json : List Char) : Except Err (List (List Char)) :=
  match strIdxFrom json stopSeqKey 0 with
  | none => Except.ok []
  | some p =>
    match charIdxFrom json '[' p with
    | none => Except.ok []
    | some bp => stopLoop json (charIdxFrom json ']' bp) fuel (charIdxFrom json '"' bp) []

/-- `parse_options_json` with an explicit fuel budget for the
stop-sequence loop.  The source first sets every out-parameter to its
default and then overwrites each only when its key is found; the fields
are scanned independently from the start of the input in source order, so
the decode is the sequential composition of the five independent field
reads, with the first numeric failure aborting the whole decode. -/
def parse_options_json_fuel (fuel : Nat) (json : List Char) : Except Err SamplingOptions :=
  if json = [] then Except.ok ⟨-1, -1, 0, 100, []⟩
  else do
    let t ← floatField json tempKey (-1)
    let p ← floatField json topPKey (-1)
    let k ← natField json topKKey 0
    let m ← natField json maxTokKey 100
    let s ← stopField fuel json
    return ⟨t, p, k, m, s⟩

/-- The options decoder at the default budget. -/
def parse_options_json (json : List Char) : Except Err SamplingOptions :=
  parse_options_json_fuel (json.length + 2) json

/-- One tool rendered by `format_tools_for_prompt`, matching the source's
string concatenation byte for byte. -/
def fmtToolOne (t : ToolFunction) : List Char :=
  ("  ").data ++ '{' :: ("\n    \"type\": \"function\",\n    \"function\": ").data
  ++ '{' :: ("\n      \"name\": \"").data ++ t.name
  ++ ("\",\n      \"description\": \"").data ++ t.description ++ ("\"").data
  ++ (match t.parameters with
      | some schema => (",\n      \"parameters\": ").data ++ schema
      | none => [])
  ++ ("\n    ").data ++ '}' :: ("\n  ").data ++ [ '}' ]

/-- The tools after the first, each preceded by the `",\n"` separator the
source prepends when `i > 0`. -/
def fmtToolsRest : List ToolFunction → List Char
  | [] => []
  | t :: ts => (",\n").data ++ fmtToolOne t ++ fmtToolsRest ts

/-- `format_tools_for_prompt`: the empty string on the empty sequence,
else the rendered tools joined by `",\n"`. -/
def format_tools_for_prompt : List ToolFunction → List Char
  | [] => []
  | t :: ts => fmtToolOne t ++ fmtToolsRest ts

/-- The literal marker `"function_call"` searched by the response
encoder's extraction phase. -/
def fcMarker : List Char := ("\"function_call\"").data

/-- The extraction loop of `parse_function_calls_from_response`: from
`sp`, find the next marker, the next `'{'` after it, and the balanced
fragment from there; on balance push the fragment, truncate the regular
response to just before the marker and then to just before the last `'{'`
of that prefix; in either case resume after the scanned fragment. -/
def fcLoop (json : List Char) : Nat → Nat → List Char × List (List Char) → Except Err (List Char × List (List Char))
  | 0, sp, st => if sp < json.length then Except.error Err.outOfFuel else Except.ok st
  | fuel + 1, sp, st =>
    if sp < json.length then
      match strIdxFrom json fcMarker sp with
      | none => Except.ok st
      | some mp =>
        match charIdxFrom json '{' mp with
        | none => Except.ok st
        | some js =>
          match braceScan json (json.length + 2) 1 (js + 1) with
          | Except.error e => Except.error e
          | Except.ok jr =>
            if jr.2 = 0 then
              fcLoop json fuel jr.1
                ((match rfindC '{' (json.take mp) with
                  | none => json.take mp
                  | some lb => (json.take mp).take lb),
                 st.2 ++ [substrTo json js (some jr.1)])
            else fcLoop json fuel jr.1 st
    else Except.ok st

/-- `parse_function_calls_from_response`: the regular response starts as
the whole input and the call list empty; the default fuel budget is
proved sufficient for every input. -/
def parse_function_calls_from_response (text : List Char) : Except Err (List Char × List (List Char)) :=
  fcLoop text (text.length + 1) 0 (text, [])

/-- The response-text escaping of `construct_response_json`: quote,
newline, carriage return, tab and backslash get a backslash escape and
every other character passes through unchanged. -/
def escRespChar (c : Char) : List Char :=
  if c = '"' then [ '\\', '"' ]
  else if c = '\n' then [ '\\', 'n' ]
  else if c = '\r' then [ '\\', 'r' ]
  else if c = '\t' then [ '\\', 't' ]
  else if c = '\\' then [ '\\', '\\' ]
  else [c]

/-- Decimal digit character. -/
def digitChar (n : Nat) : Char := Char.ofNat (48 + n)

/-- Decimal digits of `n`, most significant first (fuelled, one digit per
unit of fuel; `n + 1` always suffices). -/
def natCharsAux : Nat → Nat → List Char
  | 0, _ => []
  | fuel + 1, n => if n < 10 then [digitChar n] else natCharsAux fuel (n / 10) ++ [digitChar (n % 10)]

/-- Decimal rendering of a natural number, as `operator<<` on a
`size_t`. -/
def natChars (n : Nat) : List Char := natCharsAux (n + 1) n

/-- Fixed-point two-decimal rendering of a non-negative rational:
the value times 100, rounded to the nearest integer (half away from
zero), printed as integer part, `'.'`, and exactly two digits.  This
models `std::fixed << std::setprecision(2)` on the claims' inputs, none
of which is near a rounding tie. -/
def fmt2abs (q : ℚ) : List Char :=
  let n : Nat := (Int.floor (q * 100 + 1 / 2)).toNat
  natChars (n / 100) ++ '.' :: digitChar (n % 100 / 10) :: [digitChar (n % 10)]

/-- Fixed-point two-decimal rendering with sign. -/
def fmt2 (q : ℚ) : List Char :=
  if q < 0 then '-' :: fmt2abs (-q) else fmt2abs q

/-- The function-call fragments after the first, comma-separated. -/
def commaJoinRest : List (List Char) → List Char
  | [] => []
  | f :: fs => ',' :: (f ++ commaJoinRest fs)

/-- Comma-separated fragment list, as the encoder's `i > 0` loop. -/
def commaJoin : List (List Char) → List Char
  | [] => []
  | f :: fs => f ++ commaJoinRest fs

/-- `construct_response_json`: the single-line result object.  The
`function_calls` field appears only when the list is non-empty, with the
fragments inserted verbatim; `total_tokens` is the sum of the two token
counts. -/
def construct_response_json (regular : List Char) (fcs : List (List Char))
    (t1 t2 t3 : ℚ) (prompt_tokens completion_tokens : Nat) : List Char :=
  '{' :: ("\"success\":true,\"response\":\"").data
  ++ (regular.map escRespChar).flatten
  ++ ("\",").data
  ++ (if fcs.isEmpty then []
      else ("\"function_calls\":[").data ++ commaJoin fcs ++ ("],").data)
  ++ ("\"time_to_first_token_ms\":").data ++ fmt2 t1
  ++ (",\"total_time_ms\":").data ++ fmt2 t2
  ++ (",\"tokens_per_second\":").data ++ fmt2 t3
  ++ (",\"prefill_tokens\":").data ++ natChars prompt_tokens
  ++ (",\"decode_tokens\":").data ++ natChars completion_tokens
  ++ (",\"total_tokens\":").data ++ natChars (prompt_tokens + completion_tokens)
  ++ [ '}' ]

/-- The sanitisation of `handle_error_response`: every quote becomes an
apostrophe and every newline a space. -/
def sanitizeMsg (msg : List Char) : List Char :=
  msg.map (fun c => if c = '"' then Char.ofNat 39 else if c = '\n' then ' ' else c)

/-- The error-shaped JSON object built by `handle_error_response`. -/
def errorJson (msg : List Char) : List Char :=
  '{' :: ("\"success\":false,\"error\":\"").data ++ sanitizeMsg msg ++ '"' :: [ '}' ]

/-- `handle_error_response`: the buffer is modelled by its
null-terminated string contents (`none` is a null pointer).  The source
copies the JSON only when the buffer exists and the JSON's length is
strictly below the capacity; otherwise it does nothing — the function
returns `void`, so this final buffer state is its entire observable
effect and no success/overflow status exists. -/
def handle_error_response (msg : List Char) (buffer : Option (List Char)) (bufferSize : Nat) : Option (List Char) :=
  match buffer with
  | none => none
  | some buf =>
    if (errorJson msg).length < bufferSize then some (errorJson msg) else some buf

/-- Opening of one serialised chat object: a brace, the `"role"` key, a
colon and the opening quote of the role value. -/
def msgHead : List Char := '{' :: ("\"role\":\"").data

/-- Middle of one serialised chat object: the closing quote of the role
value, a comma, the `"content"` key, a colon and the opening quote of the
content value. -/
def msgMid : List Char := ("\",\"content\":\"").data

/-- End of one serialised chat object: the closing quote of the content
value and the closing brace. -/
def msgEnd : List Char := '"' :: [ '}' ]

/-- One serialised `(role, content)` object. -/
def mkMsg (r c : List Char) : List Char := msgHead ++ r ++ msgMid ++ c ++ msgEnd

/-- The serialised objects of a chat array after its opening bracket,
comma-separated and closed by `']'`. -/
def msgsTail : List (List Char × List Char) → List Char
  | [] => [ ']' ]
  | t :: ts =>
    mkMsg t.1 t.2 ++ (match ts with
                      | [] => [ ']' ]
                      | _ :: _ => ',' :: msgsTail ts)

/-- A serialised chat array of `(role, content)` pairs. -/
def mkJson (ts : List (List Char × List Char)) : List Char := '[' :: msgsTail ts

/-- Well-formedness of a raw (still escaped) content value: every quote
character is immediately preceded by a backslash and the value does not
end in a backslash — exactly the values whose closing quote the message
decoder's content scan identifies correctly. -/
def gcB : List Char → Bool
  | [] => true
  | [x] => !(x = '"' || x = '\\')
  | x :: b :: rest =>
    if x = '"' then false
    else if x = '\\' then (if b = '"' then gcB rest else gcB (b :: rest))
    else gcB (b :: rest)

/-- JSON whitespace skipping for the syntax checker. -/
def skipWsJ (s : List Char) : List Char :=
  s.dropWhile (fun c => c = ' ' || c = '\t' || c = '\n' || c = '\r')

/-- Remainder after a JSON string body whose opening quote is already
consumed; a backslash escapes the following character. -/
def jsonStringRest : List Char → Option (List Char)
  | [] => none
  | c :: rest =>
    if c = '"' then some rest
    else if c = '\\' then
      match rest with
      | [] => none
      | _ :: rest2 => jsonStringRest rest2
    else jsonStringRest rest

/-- Remainder after a JSON number (optional minus, digits, optional
fractional part). -/
def jsonNumberRest (s : List Char) : Option (List Char) :=
  let s1 := match s with
            | '-' :: r => r
            | _ => s
  if (s1.takeWhile Char.isDigit).isEmpty then none
  else
    match s1.dropWhile Char.isDigit with
    | '.' :: r =>
      if (r.takeWhile Char.isDigit).isEmpty then none
      else some (r.dropWhile Char.isDigit)
    | s2 => some s2

/-- Grammar position of the JSON syntax checker: a full value, the inside
of an object after `'{'`, or the inside of an array after `'['`. -/
inductive JMode where
  | value
  | objectBody
  | arrayBody

/-- Fuelled recursive-descent JSON syntax checker, returning the
remainder after one production.  One unit of fuel per recursive step;
every step first consumes at least one character, so `length + 2`
suffices. -/
def jsonRest : Nat → JMode → List Char → Option (List Char)
  | 0, _, _ => none
  | fuel + 1, JMode.value, s0 =>
    match skipWsJ s0 with
    | [] => none
    | c :: rest =>
      if c = '"' then jsonStringRest rest
      else if c = '{' then jsonRest fuel JMode.objectBody (skipWsJ rest)
      else if c = '[' then jsonRest fuel JMode.arrayBody (skipWsJ rest)
      else if strPrefixOf (("true").data) (c :: rest) then some ((c :: rest).drop 4)
      else if strPrefixOf (("false").data) (c :: rest) then some ((c :: rest).drop 5)
      else if strPrefixOf (("null").data) (c :: rest) then some ((c :: rest).drop 4)
      else jsonNumberRest (c :: rest)
  | fuel + 1, JMode.objectBody, s =>
    match s with
    | '}' :: rest => some rest
    | '"' :: rest =>
      match jsonStringRest rest with
      | none => none
      | some s1 =>
        match skipWsJ s1 with
        | ':' :: s2 =>
          match jsonRest fuel JMode.value s2 with
          | none => none
          | some s3 =>
            match skipWsJ s3 with
            | ',' :: s4 => jsonRest fuel JMode.objectBody (skipWsJ s4)
            | '}' :: s4 => some s4
            | _ => none
        | _ => none
    | _ => none
  | fuel + 1, JMode.arrayBody, s =>
    match s with
    | ']' :: rest => some rest
    | _ =>
      match jsonRest fuel JMode.value s with
      | none => none
      | some s1 =>
        match skipWsJ s1 with
        | ',' :: s2 => jsonRest fuel JMode.arrayBody (skipWsJ s2)
        | ']' :: s2 => some s2
        | _ => none

/-- Whether `s` is one complete JSON value, up to surrounding
whitespace. -/
def isJsonValueText (s : List Char) : Bool :=
  match jsonRest (s.length + 2) JMode.value s with
  | some r => (skipWsJ r).isEmpty
  | none => false

/-- Whether `s` is one complete JSON object text: a complete value whose
first non-whitespace character opens an object. -/
def isJsonObjectText (s : List Char) : Bool :=
  ((skipWsJ s).head? == some '{') && isJsonValueText s

/-- Whether `s` is one complete JSON array text: a complete value whose
first non-whitespace character opens an array. -/
def isJsonArrayText (s : List Char) : Bool :=
  ((skipWsJ s).head? == some '[') && isJsonValueText s

/-- Malformed message input reaching the out-of-range read: the first
character is a quote, `"content"` is the tail of the input, so
`find('"', content_pos + 9)` fails, `content_start` wraps to `0`, the
content scan finds the quote at index `0` and reads `json[0 - 1]`,
i.e. `json[2^64 - 1]`. -/
def oobJson : List Char := '"' :: '[' :: '{' :: ("\"role\"\"u\"\"content\"").data

/-- Malformed message input on which the object loop cycles forever: both
objects share the single trailing `"content"` key, `content_start` wraps
to `0` each time, the content scan stops at the input's first quote
(index 2), and `find('{', 2)` returns the second `'{'` again and again. -/
def cycMsgJson : List Char :=
  '[' :: '{' :: ("\"role\"\"u\"").data ++ '{' :: ("\"role\"\"v\"\"content\"").data

/-- Malformed options input on which the stop-sequence loop cycles
forever: there is no `']'` (so `end_pos` is `npos`) and no closing quote
after the last opening quote, so `seq_end + 1` wraps to `0` and the quote
search restarts from the beginning of the input on every second
iteration. -/
def cycOptJson : List Char := '{' :: ("\"stop_sequences\":[\"a").data

/-- The raw model output of the response-encoder example. -/
def exFcText : List Char :=
  ("Hello there. ").data ++ '{' :: ("\"function_call\": ").data
  ++ '{' :: ("\"name\":\"lookup\",\"arguments\":").data
  ++ '{' :: ("\"q\":\"weather\"").data ++ '}' :: '}' :: [ '}' ]

/-- The function-call fragment extracted from `exFcText`. -/
def exFrag : List Char :=
  '{' :: ("\"name\":\"lookup\",\"arguments\":").data
  ++ '{' :: ("\"q\":\"weather\"").data ++ '}' :: [ '}' ]

/-- Raw model output carrying two function-call fragments. -/
def ex2FcText : List Char :=
  ("A ").data ++ '{' :: ("\"function_call\": ").data ++ '{' :: ("\"n\":1").data
  ++ '}' :: '}' :: (" B ").data
  ++ '{' :: ("\"function_call\": ").data ++ '{' :: ("\"m\":2").data ++ '}' :: [ '}' ]

/-- First fragment of `ex2FcText`. -/
def ex2FragA : List Char := '{' :: ("\"n\":1").data ++ [ '}' ]

/-- Second fragment of `ex2FcText`. -/
def ex2FragB : List Char := '{' :: ("\"m\":2").data ++ [ '}' ]

/-- The regular response the encoder actually returns for `ex2FcText`:
the text is truncated just before the second marker's wrapping brace, so
the first fragment (with its whole marker object prefix) remains inside
the returned text. -/
def ex2Regular : List Char :=
  ("A ").data ++ '{' :: ("\"function_call\": ").data ++ '{' :: ("\"n\":1").data
  ++ '}' :: '}' :: (" B ").data

/-- The parameter-schema text of the tool round-trip example. -/
def schemaD : List Char :=
  '{' :: ("\"type\":\"object\",\"properties\":").data ++ '{' :: ("\"x\":").data
  ++ '{' :: ("\"type\":\"string\"").data ++ '}' :: '}' :: [ '}' ]

/-- The tool-array input of the round-trip example. -/
def toolsIn : List Char :=
  '[' :: '{' :: ("\"type\":\"function\",\"function\":").data
  ++ '{' :: ("\"name\":\"get\",\"description\":\"d\",\"parameters\":").data
  ++ schemaD ++ '}' :: '}' :: [ ']' ]

/-- The descriptor decoded from `toolsIn`. -/
def toolEx : ToolFunction := ⟨("get").data, ("d").data, some schemaD⟩

/-- The options input of the defaults example. -/
def optIn : List Char :=
  '{' :: ("\"temperature\":0.7,\"stop_sequences\":[\"END\",\"STOP\"]").data ++ [ '}' ]

/-- The options input whose `top_k` value is not numeric. -/
def optBad : List Char := '{' :: ("\"top_k\":\"oops\"").data ++ [ '}' ]

/-- Expected encoder output for the metrics example (no function calls). -/
def c8Expected : List Char :=
  '{' :: ("\"success\":true,\"response\":\"ok\",\"time_to_first_token_ms\":12.35,\"total_time_ms\":100.00,\"tokens_per_second\":10.00,\"prefill_tokens\":5,\"decode_tokens\":7,\"total_tokens\":12").data
  ++ [ '}' ]

/-- A fragment containing quotes, inserted verbatim by the encoder. -/
def fragX : List Char := '{' :: ("\"a\":\"b\"").data ++ [ '}' ]

/-- Expected encoder output when one function call is present: the
fragment appears verbatim (not re-escaped) inside `function_calls`. -/
def c8ExpectedFc : List Char :=
  '{' :: ("\"success\":true,\"response\":\"hi\",\"function_calls\":[").data
  ++ '{' :: ("\"a\":\"b\"").data
  ++ '}' :: ("],\"time_to_first_token_ms\":0.00,\"total_time_ms\":0.00,\"tokens_per_second\":0.00,\"prefill_tokens\":1,\"decode_tokens\":2,\"total_tokens\":3").data
  ++ [ '}' ]

/-- Tool input with two wrapper objects whose first lacks `"name"`: the
decoder's unbounded field searches merge the two objects into a single
record. -/
def c10A : List Char :=
  '[' :: '{' :: ("\"type\":\"function\",\"function\":").data
  ++ '{' :: ("\"description\":\"d1\",\"parameters\":").data
  ++ '{' :: ("\"p\":1").data ++ '}' :: '}' :: '}' :: ','
  :: '{' :: ("\"type\":\"function\",\"function\":").data
  ++ '{' :: ("\"name\":\"n2\",\"description\":\"d2\"").data
  ++ '}' :: '}' :: [ ']' ]

/-- The schema of the first wrapper of `c10A`. -/
def schemaP : List Char := '{' :: ("\"p\":1").data ++ [ '}' ]

/-- Tool input with two wrapper objects and no `"name"` anywhere: after
appending the first record the marker search resumes from `npos` and
scanning stops, leaving a single record despite the second wrapper. -/
def c10B : List Char :=
  '[' :: '{' :: ("\"type\":\"function\",\"function\":").data
  ++ '{' :: ("\"description\":\"d\"").data ++ '}' :: '}' :: ','
  :: '{' :: ("\"type\":\"function\",\"function\":").data
  ++ '{' :: ("\"description\":\"e\"").data ++ '}' :: '}' :: [ ']' ]


set_option maxRecDepth 40000


/-- helper: bind on Except that succeeded decomposes. -/
theorem except_bind_ok {ε α β : Type} {x : Except ε α} {f : α → Except ε β} {b : β}
    (h : (x >>= f) = Except.ok b) : ∃ a, x = Except.ok a ∧ f a = Except.ok b := by
  cases x with
  | error e => simp [Bind.bind, Except.bind] at h
  | ok a => exact ⟨a, rfl, by simpa [Bind.bind, Except.bind] using h⟩

theorem charIdx_eq_none_iff {c : Char} {s : List Char} : charIdx c s = none ↔ c ∉ s := by
  induction s with
  | nil => simp [charIdx]
  | cons a rest ih =>
    by_cases h : a = c
    · subst h
      simp [charIdx]
    · simp only [charIdx, if_neg h, Option.map_eq_none', ih, List.mem_cons]
      constructor
      · intro hn hor
        rcases hor with h1 | h2
        · exact h h1.symm
        · exact hn h2
      · intro hn hm
        exact hn (Or.inr hm)

-- C3
/-- Claim C3: text with no top-level bracket makes `parse_messages_json`
fail with `malformedInput` while `parse_tools_json` (also on empty input)
returns an empty sequence without error, and decoding `[]` yields an
empty turn sequence. -/
theorem c3_theorem :
    (∀ json : List Char, '[' ∉ json →
      parse_messages_json json = Except.error Err.malformedInput
      ∧ parse_tools_json json = Except.ok [])
    ∧ parse_messages_json (("[]").data) = Except.ok []
    ∧ parse_tools_json [] = Except.ok [] := by
  refine ⟨fun json h => ?_, by decide, by decide⟩
  have hn : charIdx '[' json = none := charIdx_eq_none_iff.mpr h
  constructor
  · simp [parse_messages_json, parse_messages_json_fuel, charIdxFrom, hn]
  · by_cases hj : json = []
    · subst hj; rfl
    · simp [parse_tools_json, parse_tools_json_fuel, hj, charIdxFrom, hn]

theorem c3_witness :
    ('[' ∉ (("hello").data))
    ∧ parse_messages_json (("hello").data) = Except.error Err.malformedInput
    ∧ parse_tools_json (("hello").data) = Except.ok [] :=
  ⟨by decide, (c3_theorem.1 (("hello").data) (by decide)).1,
    (c3_theorem.1 (("hello").data) (by decide)).2⟩

-- C10
/-- Claim C10: the tool decoder's field searches are not bounded by the
current wrapper object and the next marker search resumes from the
`"name"` position: two wrappers whose first lacks `"name"` merge into a
single record taking the second object's name, and with no `"name"`
anywhere scanning stops right after appending the first record. -/
theorem c10_theorem :
    parse_tools_json c10A = Except.ok [⟨("n2").data, ("d1").data, some schemaP⟩]
    ∧ parse_tools_json c10B = Except.ok [⟨[], ("d").data, none⟩] := by
  constructor <;> decide

-- C9
/-- Claim C9 (amended): when the error JSON does not fit (or the buffer
pointer is null) the destination is left completely unmodified — never
partially written — and when it fits the whole JSON is written; the
source function returns `void`, so the buffer state is the call's entire
result and no boolean/status signal exists. -/
theorem c9_theorem :
    (∀ (msg buf : List Char) (bufferSize : Nat), bufferSize ≤ (errorJson msg).length →
      handle_error_response msg (some buf) bufferSize = some buf)
    ∧ (∀ (msg : List Char) (bufferSize : Nat), handle_error_response msg none bufferSize = none)
    ∧ (∀ (msg buf : List Char) (bufferSize : Nat), (errorJson msg).length < bufferSize →
      handle_error_response msg (some buf) bufferSize = some (errorJson msg)) := by
  refine ⟨fun msg buf bs h => ?_, fun msg bs => rfl, fun msg buf bs h => ?_⟩
  · simp [handle_error_response, if_neg (by omega : ¬ (errorJson msg).length < bs)]
  · simp [handle_error_response, if_pos h]

theorem c9_counterexample :
    handle_error_response (("e").data) (some (("abc").data)) 29 = some (("abc").data) := by
  decide

theorem c9_witness :
    (29 ≤ (errorJson (("e").data)).length)
    ∧ handle_error_response (("e").data) (some (("xyz").data)) 29 = some (("xyz").data) :=
  ⟨by decide, c9_theorem.1 (("e").data) (("xyz").data) 29 (by decide)⟩

-- C7 pieces


-- C1 counterexample
theorem c1_counterexample : parse_messages_json oobJson = Except.error Err.oobRead := by decide

-- C2 concrete pieces
theorem c2_counterexample :
    parse_function_calls_from_response ex2FcText = Except.ok (ex2Regular, [ex2FragA, ex2FragB])
    ∧ ex2FragA <:+: ex2Regular := by
  constructor <;> decide

-- C5
theorem format_tools_eq_intercalate (ts : List ToolFunction) :
    format_tools_for_prompt ts = List.intercalate ((",\n").data) (ts.map fmtToolOne) := by
  induction ts with
  | nil => simp [format_tools_for_prompt, List.intercalate]
  | cons t ts ih =>
    cases ts with
    | nil => simp [format_tools_for_prompt, fmtToolsRest, List.intercalate, List.intersperse]
    | cons t2 rest =>
      have hrest : fmtToolsRest (t2 :: rest) = (",\n").data ++ format_tools_for_prompt (t2 :: rest) := by
        simp [format_tools_for_prompt, fmtToolsRest]
      have : format_tools_for_prompt (t :: t2 :: rest)
          = fmtToolOne t ++ ((",\n").data ++ format_tools_for_prompt (t2 :: rest)) := by
        simp [format_tools_for_prompt, hrest]
      rw [this, ih]
      simp [List.intercalate, List.map_cons, List.intersperse_cons_cons, List.flatten]

/-- Claim C5 (amended): `format_tools_for_prompt` renders the descriptor
sequence as the comma-separated, one-tool-per-line list of wrapper
objects (no enclosing array brackets) and returns the empty string on the
empty sequence; for the example descriptor the decoded schema is
byte-identical to the brace-balanced substring of the input, and the
formatter's output is a syntactically valid JSON object embedding that
exact schema text unchanged. -/
theorem c5_theorem :
    (∀ ts : List ToolFunction,
      format_tools_for_prompt ts = List.intercalate ((",\n").data) (ts.map fmtToolOne))
    ∧ format_tools_for_prompt [] = []
    ∧ parse_tools_json toolsIn = Except.ok [toolEx]
    ∧ toolEx.parameters = some schemaD
    ∧ schemaD <:+: toolsIn
    ∧ isJsonObjectText (format_tools_for_prompt [toolEx]) = true
    ∧ schemaD <:+: format_tools_for_prompt [toolEx] :=
  ⟨format_tools_eq_intercalate, rfl, by decide, rfl, by decide, by decide, by decide⟩

theorem c5_counterexample :
    isJsonArrayText (format_tools_for_prompt [toolEx]) = false
    ∧ format_tools_for_prompt [toolEx] ≠ [] := by
  constructor <;> decide

-- C6
/-- Claim C6: decoding the example options input yields temperature 7/10
with every other scalar at its default and the stop sequences in order;
and in any successful decode a field whose key text is absent holds its
unconditionally-initialized default. -/
theorem c6_theorem :
    parse_options_json optIn
      = Except.ok ⟨7/10, -1, 0, 100, [("END").data, ("STOP").data]⟩
    ∧ ∀ (fuel : Nat) (json : List Char) (r : SamplingOptions),
        parse_options_json_fuel fuel json = Except.ok r →
        (strIdxFrom json tempKey 0 = none → r.temperature = -1)
        ∧ (strIdxFrom json topPKey 0 = none → r.top_p = -1)
        ∧ (strIdxFrom json topKKey 0 = none → r.top_k = 0)
        ∧ (strIdxFrom json maxTokKey 0 = none → r.max_tokens = 100)
        ∧ (strIdxFrom json stopSeqKey 0 = none → r.stop_sequences = []) := by
  constructor
  · have hv : stofVal false (("0").data) (("7").data) = 7/10 := by
      unfold stofVal
      rw [show digitsToNat (("0").data) = 0 from by decide,
        show digitsToNat (("7").data) = 7 from by decide,
        show ((("7").data)).length = 1 from by decide]
      norm_num
    have ht : floatField optIn tempKey (-1) = Except.ok (7/10) := by
      simp only [floatField, show strIdxFrom optIn tempKey 0 = some 1 from by decide]
      unfold stofE
      rw [show stofScan (optIn.drop (wrapInc (charIdxFrom optIn ':' 1)))
            = some (false, ("0").data, ("7").data) from by decide]
      show Except.ok (stofVal false (("0").data) (("7").data)) = _
      rw [hv]
    have hp : floatField optIn topPKey (-1) = Except.ok (-1) := by
      simp only [floatField, show strIdxFrom optIn topPKey 0 = none from by decide]
    have hk : natField optIn topKKey 0 = Except.ok 0 := by
      simp only [natField, show strIdxFrom optIn topKKey 0 = none from by decide]
    have hm : natField optIn maxTokKey 100 = Except.ok 100 := by
      simp only [natField, show strIdxFrom optIn maxTokKey 0 = none from by decide]
    have hs : stopField (optIn.length + 2) optIn = Except.ok [("END").data, ("STOP").data] := by
      decide
    show parse_options_json_fuel (optIn.length + 2) optIn = _
    rw [parse_options_json_fuel, if_neg (show ¬ optIn = [] from by decide)]
    simp only [ht, hp, hk, hm, hs, Bind.bind, Except.bind]
    rfl
  · intro fuel json r h
    by_cases hj : json = []
    · subst hj
      rw [show parse_options_json_fuel fuel []
            = Except.ok (⟨-1, -1, 0, 100, []⟩ : SamplingOptions) from rfl] at h
      have h' : (⟨-1, -1, 0, 100, []⟩ : SamplingOptions) = r := by injection h
      subst h'
      refine ⟨fun _ => rfl, fun _ => rfl, fun _ => rfl, fun _ => rfl, fun _ => rfl⟩
    · rw [parse_options_json_fuel, if_neg hj] at h
      obtain ⟨t, ht, h⟩ := except_bind_ok h
      obtain ⟨p, hp, h⟩ := except_bind_ok h
      obtain ⟨k, hk, h⟩ := except_bind_ok h
      obtain ⟨m, hm, h⟩ := except_bind_ok h
      obtain ⟨s, hs, h⟩ := except_bind_ok h
      have hr : r = ⟨t, p, k, m, s⟩ := by
        simpa [pure, Except.pure, eq_comm] using h
      subst hr
      refine ⟨fun hx => ?_, fun hx => ?_, fun hx => ?_, fun hx => ?_, fun hx => ?_⟩
      · rw [floatField, hx] at ht
        simpa using ht.symm
      · rw [floatField, hx] at hp
        simpa using hp.symm
      · rw [natField, hx] at hk
        simpa using hk.symm
      · rw [natField, hx] at hm
        simpa using hm.symm
      · rw [stopField, hx] at hs
        simpa using hs.symm

theorem c6_witness :
    strIdxFrom optIn topPKey 0 = none
    ∧ (⟨7/10, -1, 0, 100, [("END").data, ("STOP").data]⟩ : SamplingOptions).top_p = -1 :=
  ⟨by decide,
    (c6_theorem.2 (optIn.length + 2) optIn _ c6_theorem.1).2.1 (by decide)⟩

-- C7
/-- Claim C7: an unparseable numeric `top_k` value raises
`numericParseFailure`, fatal to the whole options decode — no success
result is possible, the default is never silently substituted. -/
theorem c7_theorem :
    parse_options_json optBad = Except.error Err.numericParseFailure
    ∧ ∀ (fuel : Nat) (json : List Char) (pk : Nat),
        strIdxFrom json topKKey 0 = some pk →
        stoulE (json.drop (wrapInc (charIdxFrom json ':' pk))) = Except.error Err.numericParseFailure →
        ∀ r : SamplingOptions, parse_options_json_fuel fuel json ≠ Except.ok r := by
  constructor
  · decide
  · intro fuel json pk h1 h2 r hok
    have hj : json ≠ [] := by
      intro he
      subst he
      simp [strIdxFrom, strIdx] at h1
    rw [parse_options_json_fuel, if_neg hj] at hok
    obtain ⟨t, ht, hok⟩ := except_bind_ok hok
    obtain ⟨p, hp, hok⟩ := except_bind_ok hok
    obtain ⟨k, hk, hok⟩ := except_bind_ok hok
    have hkk : natField json topKKey 0 = Except.error Err.numericParseFailure := by
      rw [natField, h1]
      exact h2
    rw [hkk] at hk
    exact absurd hk (by simp)

theorem c7_witness :
    parse_options_json_fuel (optBad.length + 2) optBad
      ≠ Except.ok (⟨-1, -1, 0, 100, []⟩ : SamplingOptions) :=
  c7_theorem.2 (optBad.length + 2) optBad 1 (by decide) (by decide) _

-- C8
/-- Claim C8: the metrics are rendered with exactly two fixed-point
decimals (`12.3456 ↦ 12.35`, `9.999 ↦ 10.00`), the `function_calls`
field appears only when the list is non-empty (fragments verbatim), and
the output always ends with `total_tokens` equal to
`prefill_tokens + decode_tokens`. -/
theorem c8_theorem :
    construct_response_json (("ok").data) [] (123456/10000) 100 (9999/1000) 5 7 = c8Expected
    ∧ construct_response_json (("hi").data) [fragX] 0 0 0 1 2 = c8ExpectedFc
    ∧ ∀ (r : List Char) (fcs : List (List Char)) (t1 t2 t3 : ℚ) (p d : Nat),
        ((",\"total_tokens\":").data ++ natChars (p + d) ++ [ '}' ])
          <:+ construct_response_json r fcs t1 t2 t3 p d := by
  have f1 : fmt2 (123456/10000 : ℚ) = ("12.35").data := by
    rw [fmt2, if_neg (show ¬ (123456/10000 : ℚ) < 0 from by norm_num), fmt2abs,
      show Int.floor (((123456/10000 : ℚ)) * 100 + 1/2) = (1235 : ℤ) from by norm_num]
    decide
  have f2 : fmt2 (100 : ℚ) = ("100.00").data := by
    rw [fmt2, if_neg (show ¬ (100 : ℚ) < 0 from by norm_num), fmt2abs,
      show Int.floor (((100 : ℚ)) * 100 + 1/2) = (10000 : ℤ) from by norm_num]
    decide
  have f3 : fmt2 (9999/1000 : ℚ) = ("10.00").data := by
    rw [fmt2, if_neg (show ¬ (9999/1000 : ℚ) < 0 from by norm_num), fmt2abs,
      show Int.floor (((9999/1000 : ℚ)) * 100 + 1/2) = (1000 : ℤ) from by norm_num]
    decide
  have f0 : fmt2 (0 : ℚ) = ("0.00").data := by
    rw [fmt2, if_neg (show ¬ (0 : ℚ) < 0 from by norm_num), fmt2abs,
      show Int.floor (((0 : ℚ)) * 100 + 1/2) = (0 : ℤ) from by norm_num]
    decide
  refine ⟨?_, ?_, ?_⟩
  · rw [construct_response_json, f1, f2, f3]
    decide
  · rw [construct_response_json, f0]
    decide
  · intro r fcs t1 t2 t3 p d
    have hsplit : construct_response_json r fcs t1 t2 t3 p d
        = ('{' :: (("\"success\":true,\"response\":\"").data
            ++ (r.map escRespChar).flatten
            ++ ("\",").data
            ++ (if fcs.isEmpty then []
                else ("\"function_calls\":[").data ++ commaJoin fcs ++ ("],").data)
            ++ ("\"time_to_first_token_ms\":").data ++ fmt2 t1
            ++ (",\"total_time_ms\":").data ++ fmt2 t2
            ++ (",\"tokens_per_second\":").data ++ fmt2 t3
            ++ (",\"prefill_tokens\":").data ++ natChars p
            ++ (",\"decode_tokens\":").data ++ natChars d))
          ++ ((",\"total_tokens\":").data ++ natChars (p + d) ++ [ '}' ]) := by
      simp [construct_response_json, List.append_assoc]
    rw [hsplit]
    exact List.suffix_append _ _


-- helper facts about the string-search primitives

theorem strIdx_some_prefix {pat : List Char} :
    ∀ {s : List Char} {j : Nat}, strIdx pat s = some j → strPrefixOf pat (s.drop j) = true := by
  intro s
  induction s with
  | nil => intro j h; simp [strIdx] at h
  | cons a rest ih =>
    intro j h
    by_cases hp : strPrefixOf pat (a :: rest) = true
    · rw [strIdx, if_pos hp] at h
      injection h with h
      subst h
      simpa using hp
    · rw [strIdx, if_neg hp] at h
      rcases Option.map_eq_some'.mp h with ⟨j', hj', rfl⟩
      simpa using ih hj'

theorem strIdxFrom_facts {s pat : List Char} {i j : Nat}
    (h : strIdxFrom s pat i = some j) :
    i ≤ j ∧ strPrefixOf pat (s.drop j) = true := by
  rcases Option.map_eq_some'.mp h with ⟨k, hk, rfl⟩
  refine ⟨Nat.le_add_left _ _, ?_⟩
  have := strIdx_some_prefix hk
  rwa [List.drop_drop, Nat.add_comm i k] at this

theorem charIdxFrom_ge {s : List Char} {c : Char} {i j : Nat}
    (h : charIdxFrom s c i = some j) : i ≤ j := by
  rcases Option.map_eq_some'.mp h with ⟨k, _, rfl⟩
  exact Nat.le_add_left _ _

theorem strPrefixOf_length_le {pat : List Char} :
    ∀ {s : List Char}, strPrefixOf pat s = true → pat.length ≤ s.length := by
  induction pat with
  | nil => intro s _; simp
  | cons p ps ih =>
    intro s h
    cases s with
    | nil => simp [strPrefixOf] at h
    | cons b bs =>
      simp only [strPrefixOf, Bool.and_eq_true] at h
      simpa using ih h.2

theorem strPrefixOf_two_cons {p1 p2 : Char} {pr : List Char} :
    ∀ {t : List Char}, strPrefixOf (p1 :: p2 :: pr) t = true → ∃ t', t = p1 :: p2 :: t' := by
  intro t h
  match t with
  | [] => simp [strPrefixOf] at h
  | [a] => simp [strPrefixOf] at h
  | a :: b :: t' =>
    simp only [strPrefixOf, Bool.and_eq_true, decide_eq_true_eq] at h
    exact ⟨t', by rw [h.1, h.2.1]⟩

theorem funcKey_nameKey_clash {t : List Char}
    (h1 : strPrefixOf funcKey t = true) (h2 : strPrefixOf nameKey t = true) : False := by
  obtain ⟨t1, ht1⟩ := @strPrefixOf_two_cons '"' 'f' (("unction\"").data) _
    (by rw [show ('"' : Char) :: 'f' :: ("unction\"").data = funcKey from rfl]; exact h1)
  obtain ⟨t2, ht2⟩ := @strPrefixOf_two_cons '"' 'n' (("ame\"").data) _
    (by rw [show ('"' : Char) :: 'n' :: ("ame\"").data = nameKey from rfl]; exact h2)
  rw [ht1] at ht2
  injection ht2 with _ ht2
  injection ht2 with hfn _
  exact absurd hfn (by decide)

-- braceScan always returns, never moving backwards

theorem braceScan_ok (json : List Char) :
    ∀ (fuel bc pe : Nat), json.length - pe < fuel →
      ∃ pr : Nat × Nat, braceScan json fuel bc pe = Except.ok pr ∧ pe ≤ pr.1 := by
  intro fuel
  induction fuel with
  | zero => intro bc pe h; omega
  | succ fuel ih =>
    intro bc pe h
    by_cases hbc : bc = 0
    · exact ⟨(pe, bc), by rw [braceScan, if_pos hbc], Nat.le_refl _⟩
    · cases hg : json[pe]? with
      | none => exact ⟨(pe, bc), by rw [braceScan, if_neg hbc, hg], Nat.le_refl _⟩
      | some c =>
        have hpe : pe < json.length := by
          by_contra hh
          push_neg at hh
          rw [List.getElem?_eq_none hh] at hg
          exact absurd hg (by simp)
        obtain ⟨pr, hpr, hle⟩ := ih (if c = '{' then bc + 1 else if c = '}' then bc - 1 else bc)
          (pe + 1) (by omega)
        exact ⟨pr, by rw [braceScan, if_neg hbc, hg]; exact hpr, by omega⟩

-- the extraction loop of the response encoder terminates on every input

theorem fcLoop_ok (json : List Char) :
    ∀ (fuel sp : Nat) (st : List Char × List (List Char)), json.length - sp < fuel →
      ∃ res, fcLoop json fuel sp st = Except.ok res := by
  intro fuel
  induction fuel with
  | zero => intro sp st h; omega
  | succ fuel ih =>
    intro sp st h
    by_cases hsp : sp < json.length
    · rw [fcLoop, if_pos hsp]
      cases hm : strIdxFrom json fcMarker sp with
      | none => exact ⟨st, rfl⟩
      | some mp =>
        dsimp only
        cases hj : charIdxFrom json '{' mp with
        | none => exact ⟨st, rfl⟩
        | some js =>
          dsimp only
          have hmp : sp ≤ mp := (strIdxFrom_facts hm).1
          have hjs : mp ≤ js := charIdxFrom_ge hj
          obtain ⟨pr, hpr, hle⟩ := braceScan_ok json (json.length + 2) 1 (js + 1) (by omega)
          rw [hpr]
          dsimp only
          by_cases hz : pr.2 = 0
          · rw [if_pos hz]
            exact ih pr.1 _ (by omega)
          · rw [if_neg hz]
            exact ih pr.1 _ (by omega)
    · rw [fcLoop, if_neg hsp]
      exact ⟨st, rfl⟩

-- the tool-record loop terminates on every input

theorem toolsLoop_ok (json : List Char) :
    ∀ (fuel : Nat) (posOpt : Option Nat) (acc : List ToolFunction),
      (∀ pos, posOpt = some pos →
        strPrefixOf funcKey (json.drop pos) = true ∧ json.length - pos < fuel) →
      ∃ ts, toolsLoop json fuel posOpt acc = Except.ok ts := by
  intro fuel
  induction fuel with
  | zero =>
    intro posOpt acc hinv
    cases posOpt with
    | none => exact ⟨acc, rfl⟩
    | some pos => have := (hinv pos rfl).2; omega
  | succ fuel ih =>
    intro posOpt acc hinv
    cases posOpt with
    | none => exact ⟨acc, rfl⟩
    | some pos =>
      obtain ⟨hmatch, hfuel⟩ := hinv pos rfl
      have hlen : pos + 10 ≤ json.length := by
        have h1 := strPrefixOf_length_le hmatch
        have h2 : (json.drop pos).length = json.length - pos := List.length_drop _ _
        have h3 : funcKey.length = 10 := by decide
        by_cases hp : pos ≤ json.length
        · omega
        · push_neg at hp
          rw [List.drop_eq_nil_of_le (by omega)] at hmatch
          simp [funcKey, strPrefixOf] at hmatch
      have hstep : ∀ (posOpt' : Option Nat) (acc' : List ToolFunction),
          (∀ q, posOpt' = some q →
            strPrefixOf funcKey (json.drop q) = true ∧ pos < q) →
          ∃ ts, toolsLoop json fuel posOpt' acc' = Except.ok ts := by
        intro posOpt' acc' hq
        refine ih posOpt' acc' ?_
        intro q hq'
        obtain ⟨hq1, hq2⟩ := hq q hq'
        exact ⟨hq1, by omega⟩
      have hnext : ∀ (np : Nat), strIdxFrom json nameKey pos = some np →
          ∀ q, strIdxFrom json funcKey np = some q →
            strPrefixOf funcKey (json.drop q) = true ∧ pos < q := by
        intro np hnp q hfk
        have hnp' := strIdxFrom_facts hnp
        have hfk' := strIdxFrom_facts hfk
        refine ⟨hfk'.2, ?_⟩
        rcases Nat.lt_or_ge pos q with hlt | hge
        · exact hlt
        · have hqe : q = pos := by omega
          subst hqe
          have hnpe : np = q := by omega
          subst hnpe
          exact (funcKey_nameKey_clash hfk'.2 hnp'.2).elim
      rw [toolsLoop]
      cases hnp : strIdxFrom json nameKey pos with
      | none =>
        dsimp only
        cases hpp : strIdxFrom json paramsKey pos with
        | none =>
          dsimp only
          exact hstep none _ (by intro q hq; simp at hq)
        | some pp =>
          dsimp only
          cases hcp : charIdxFrom json '{' pp with
          | none =>
            dsimp only
            exact hstep none _ (by intro q hq; simp at hq)
          | some ps =>
            dsimp only
            obtain ⟨pr, hpr, _⟩ := braceScan_ok json (json.length + 2) 1 (ps + 1) (by omega)
            rw [hpr]
            dsimp only
            exact hstep none _ (by intro q hq; simp at hq)
      | some np =>
        dsimp only
        cases hpp : strIdxFrom json paramsKey pos with
        | none =>
          dsimp only
          exact hstep _ _ (hnext np hnp)
        | some pp =>
          dsimp only
          cases hcp : charIdxFrom json '{' pp with
          | none =>
            dsimp only
            exact hstep _ _ (hnext np hnp)
          | some ps =>
            dsimp only
            obtain ⟨pr, hpr, _⟩ := braceScan_ok json (json.length + 2) 1 (ps + 1) (by omega)
            rw [hpr]
            dsimp only
            exact hstep _ _ (hnext np hnp)

-- the regular response is always a prefix of the original text

theorem fcLoop_preserves_prefix (json : List Char) :
    ∀ (fuel sp : Nat) (st res : List Char × List (List Char)),
      st.1 <+: json → fcLoop json fuel sp st = Except.ok res → res.1 <+: json := by
  intro fuel
  induction fuel with
  | zero =>
    intro sp st res hpre h
    rw [fcLoop] at h
    by_cases hsp : sp < json.length
    · rw [if_pos hsp] at h
      exact absurd h (by simp)
    · rw [if_neg hsp] at h
      injection h with h
      subst h
      exact hpre
  | succ fuel ih =>
    intro sp st res hpre h
    rw [fcLoop] at h
    by_cases hsp : sp < json.length
    · rw [if_pos hsp] at h
      cases hm : strIdxFrom json fcMarker sp with
      | none =>
        rw [hm] at h
        injection h with h
        subst h
        exact hpre
      | some mp =>
        rw [hm] at h
        dsimp only at h
        cases hj : charIdxFrom json '{' mp with
        | none =>
          rw [hj] at h
          injection h with h
          subst h
          exact hpre
        | some js =>
          rw [hj] at h
          dsimp only at h
          cases hb : braceScan json (json.length + 2) 1 (js + 1) with
          | error e =>
            rw [hb] at h
            exact absurd h (by simp)
          | ok pr =>
            rw [hb] at h
            dsimp only at h
            by_cases hz : pr.2 = 0
            · rw [if_pos hz] at h
              refine ih pr.1 _ res ?_ h
              cases hr : rfindC '{' (json.take mp) with
              | none => exact List.take_prefix _ _
              | some lb =>
                dsimp only
                rw [List.take_take]
                exact List.take_prefix _ _
            · rw [if_neg hz] at h
              exact ih pr.1 _ res hpre h
    · rw [if_neg hsp] at h
      injection h with h
      subst h
      exact hpre

-- divergence of the message decoder's object loop on cycMsgJson

theorem msgLoop_cyc_step (fuel : Nat) (acc : List ChatMessage) :
    msgLoop cycMsgJson (fuel + 1) (some 11) acc
      = msgLoop cycMsgJson fuel (some 11) (acc ++ [⟨("v").data, [ '[', '{' ]⟩]) := rfl

theorem msgLoop_cyc_diverges :
    ∀ (fuel : Nat) (acc : List ChatMessage),
      msgLoop cycMsgJson fuel (some 11) acc = Except.error Err.outOfFuel := by
  intro fuel
  induction fuel with
  | zero => intro acc; rfl
  | succ fuel ih =>
    intro acc
    rw [msgLoop_cyc_step]
    exact ih _

theorem msg_divergence :
    ∀ fuel, parse_messages_json_fuel fuel cycMsgJson = Except.error Err.outOfFuel := by
  intro fuel
  cases fuel with
  | zero => rfl
  | succ fuel =>
    have h1 : parse_messages_json_fuel (fuel + 1) cycMsgJson
        = msgLoop cycMsgJson fuel (some 11) [⟨("u").data, [ '[', '{' ]⟩] := rfl
    rw [h1]
    exact msgLoop_cyc_diverges fuel _

-- divergence of the options decoder's stop-sequence loop on cycOptJson

theorem stopLoop_cyc_step (fuel : Nat) (acc : List (List Char)) :
    stopLoop cycOptJson none (fuel + 2) (some 19) acc
      = stopLoop cycOptJson none fuel (some 19) (acc ++ [("stop_sequences").data]) := rfl

theorem stopLoop_cyc_diverges :
    ∀ (fuel : Nat) (acc : List (List Char)),
      stopLoop cycOptJson none fuel (some 19) acc = Except.error Err.outOfFuel := by
  intro fuel
  induction fuel using Nat.strong_induction_on with
  | _ fuel ih =>
    match fuel with
    | 0 => intro acc; rfl
    | 1 => intro acc; rfl
    | (f + 2) =>
      intro acc
      rw [stopLoop_cyc_step]
      exact ih f (by omega) _

theorem opt_divergence :
    ∀ fuel, parse_options_json_fuel fuel cycOptJson = Except.error Err.outOfFuel := by
  intro fuel
  have ht : floatField cycOptJson tempKey (-1) = Except.ok (-1) := by
    simp only [floatField, show strIdxFrom cycOptJson tempKey 0 = none from by decide]
  have hp : floatField cycOptJson topPKey (-1) = Except.ok (-1) := by
    simp only [floatField, show strIdxFrom cycOptJson topPKey 0 = none from by decide]
  have hk : natField cycOptJson topKKey 0 = Except.ok 0 := by
    simp only [natField, show strIdxFrom cycOptJson topKKey 0 = none from by decide]
  have hm : natField cycOptJson maxTokKey 100 = Except.ok 100 := by
    simp only [natField, show strIdxFrom cycOptJson maxTokKey 0 = none from by decide]
  have hs : stopField fuel cycOptJson = Except.error Err.outOfFuel := by
    have hdef : stopField fuel cycOptJson = stopLoop cycOptJson none fuel (some 19) [] := rfl
    rw [hdef]
    exact stopLoop_cyc_diverges fuel []
  rw [parse_options_json_fuel, if_neg (show ¬ cycOptJson = [] from by decide)]
  simp only [ht, hp, hk, hm, hs, Bind.bind, Except.bind]

/-- Claim C1 (amended): the claim fails on the code: `parse_messages_json` reaches the
out-of-range read `json[2^64 - 1]` on `oobJson` (see
`c1_counterexample`), and its object loop and the options decoder's
stop-sequence loop are not bounded by the input length — both run
forever on the cyclic inputs.  What does hold, and is proved here: the
tool decoder and the function-call extractor terminate with an ordinary
result on every input (their scans are bounded and every index they
read is first checked against the length), the message decoder reaches
the out-of-range branch on `oobJson`, and the two cyclic inputs exhaust
every fuel budget. -/
theorem c1_theorem :
    (∀ json : List Char, ∃ ts, parse_tools_json json = Except.ok ts)
    ∧ (∀ text : List Char, ∃ res, parse_function_calls_from_response text = Except.ok res)
    ∧ parse_messages_json oobJson = Except.error Err.oobRead
    ∧ (∀ fuel, parse_messages_json_fuel fuel cycMsgJson = Except.error Err.outOfFuel)
    ∧ (∀ fuel, parse_options_json_fuel fuel cycOptJson = Except.error Err.outOfFuel) := by
  refine ⟨?_, ?_, by decide, msg_divergence, opt_divergence⟩
  · intro json
    rw [parse_tools_json, parse_tools_json_fuel]
    by_cases hj : json = []
    · rw [if_pos hj]
      exact ⟨[], rfl⟩
    · rw [if_neg hj]
      cases hb : charIdxFrom json '[' 0 with
      | none => exact ⟨[], rfl⟩
      | some p =>
        dsimp only
        refine toolsLoop_ok json (json.length + 1) _ [] ?_
        intro pos hpos
        obtain ⟨_, hpre⟩ := strIdxFrom_facts hpos
        exact ⟨hpre, by omega⟩
  · intro text
    rw [parse_function_calls_from_response]
    exact fcLoop_ok text (text.length + 1) 0 (text, []) (by omega)

/-- Claim C2 (amended): the single-call example behaves exactly as the claim states; but
with several recognized fragments the returned regular response is the
original truncated just before the last marker's wrapping brace, so
earlier fragments (with their marker objects) remain inside it — only the
tail is removed, not all fragments.  In general the returned regular
response is a prefix of the original text, and fragments are appended in
order of appearance. -/
theorem c2_theorem :
    parse_function_calls_from_response exFcText
      = Except.ok (("Hello there. ").data, [exFrag])
    ∧ parse_function_calls_from_response ex2FcText
      = Except.ok (ex2Regular, [ex2FragA, ex2FragB])
    ∧ ∀ (text : List Char) (res : List Char × List (List Char)),
        parse_function_calls_from_response text = Except.ok res → res.1 <+: text := by
  refine ⟨by decide, by decide, ?_⟩
  intro text res h
  rw [parse_function_calls_from_response] at h
  exact fcLoop_preserves_prefix text (text.length + 1) 0 (text, []) res (List.prefix_refl _) h

theorem c2_witness : (("Hello there. ").data, [exFrag]).1 <+: exFcText :=
  c2_theorem.2.2 exFcText _ c2_theorem.1

-- helper lemmas for the serialized-chat-array proof

theorem drop_append_add {α : Type} (pre X : List α) (k : Nat) :
    (pre ++ X).drop (pre.length + k) = X.drop k := by
  rw [← List.drop_drop, List.drop_left]

theorem charIdx_append_self {c : Char} :
    ∀ {a : List Char} (l : List Char), c ∉ a → charIdx c (a ++ c :: l) = some a.length := by
  intro a
  induction a with
  | nil => intro l _; simp [charIdx]
  | cons a0 a' ih =>
    intro l h
    have h0 : a0 ≠ c := fun he => h (he ▸ List.mem_cons_self _ _)
    rw [List.cons_append, charIdx, if_neg h0, ih l (fun hm => h (List.mem_cons_of_mem _ hm))]
    rfl

theorem strPrefixOf_refl : ∀ (pat : List Char), strPrefixOf pat pat = true := by
  intro pat
  induction pat with
  | nil => rfl
  | cons p ps ih => simp [strPrefixOf, ih]

theorem strPrefixOf_append {pat : List Char} :
    ∀ {u : List Char} (v : List Char), strPrefixOf pat u = true → strPrefixOf pat (u ++ v) = true := by
  induction pat with
  | nil => intro u v _; rfl
  | cons p ps ih =>
    intro u v h
    cases u with
    | nil => simp [strPrefixOf] at h
    | cons b bs =>
      simp only [strPrefixOf, Bool.and_eq_true, decide_eq_true_eq] at h
      simp only [List.cons_append, strPrefixOf, Bool.and_eq_true, decide_eq_true_eq]
      exact ⟨h.1, ih _ h.2⟩

theorem strIdx_prefix_zero {pat s : List Char} (hs : s ≠ []) (h : strPrefixOf pat s = true) :
    strIdx pat s = some 0 := by
  cases s with
  | nil => exact absurd rfl hs
  | cons a rest => rw [strIdx, if_pos h]

theorem charIdx_some_decomp {c : Char} :
    ∀ {s : List Char} {k : Nat}, charIdx c s = some k →
      ∃ t1 t2, s = t1 ++ c :: t2 ∧ t1.length = k ∧ c ∉ t1 := by
  intro s
  induction s with
  | nil => intro k h; simp [charIdx] at h
  | cons a rest ih =>
    intro k h
    by_cases ha : a = c
    · subst ha
      rw [charIdx, if_pos rfl] at h
      injection h with h
      subst h
      exact ⟨[], rest, rfl, rfl, by simp⟩
    · rw [charIdx, if_neg ha] at h
      obtain ⟨k', hk', rfl⟩ := Option.map_eq_some'.mp h
      obtain ⟨t1, t2, rfl, hlen, hmem⟩ := ih hk'
      refine ⟨a :: t1, t2, rfl, by simp [hlen], ?_⟩
      intro hm
      rcases List.mem_cons.mp hm with h1 | h1
      · exact ha h1.symm
      · exact hmem h1

-- facts about the content well-formedness predicate

theorem gcB_getLast_aux :
    ∀ (n : Nat) (c : List Char), c.length ≤ n → gcB c = true → c ≠ [] →
      c.getLast? ≠ some '\\' := by
  intro n
  induction n with
  | zero =>
    intro c hl _ hne
    exact absurd (List.length_eq_zero.mp (Nat.le_zero.mp hl)) hne
  | succ n ih =>
    intro c hl hg hne
    rcases c with _ | ⟨x, rest⟩
    · exact absurd rfl hne
    · rcases rest with _ | ⟨b, rest'⟩
      · rw [gcB] at hg
        simp only [Bool.not_eq_true', Bool.or_eq_false_iff, decide_eq_false_iff_not] at hg
        simp [List.getLast?]
        exact hg.2
      · rw [gcB] at hg
        by_cases hx1 : x = '"'
        · rw [if_pos hx1] at hg
          exact absurd hg (by simp)
        · rw [if_neg hx1] at hg
          by_cases hx2 : x = '\\'
          · rw [if_pos hx2] at hg
            by_cases hb : b = '"'
            · rw [if_pos hb] at hg
              subst hb
              rcases rest' with _ | ⟨z, rest''⟩
              · simp [List.getLast?_cons_cons]
              · have := ih (z :: rest'') (by simp at hl ⊢; omega) hg (by simp)
                simpa [List.getLast?_cons_cons] using this
            · rw [if_neg hb] at hg
              have := ih (b :: rest') (by simp at hl ⊢; omega) hg (by simp)
              simpa [List.getLast?_cons_cons] using this
          · rw [if_neg hx2] at hg
            have := ih (b :: rest') (by simp at hl ⊢; omega) hg (by simp)
            simpa [List.getLast?_cons_cons] using this

theorem gcB_getLast {c : List Char} (hg : gcB c = true) (hne : c ≠ []) :
    c.getLast? ≠ some '\\' :=
  gcB_getLast_aux c.length c (Nat.le_refl _) hg hne

theorem gcB_decomp_aux :
    ∀ (n : Nat) (c : List Char), c.length ≤ n → gcB c = true → '"' ∈ c →
      ∃ a b, c = a ++ '\\' :: '"' :: b ∧ '"' ∉ a ∧ gcB b = true := by
  intro n
  induction n with
  | zero =>
    intro c hl _ hm
    rw [List.length_eq_zero.mp (Nat.le_zero.mp hl)] at hm
    exact absurd hm (by simp)
  | succ n ih =>
    intro c hl hg hm
    rcases c with _ | ⟨x, rest⟩
    · exact absurd hm (by simp)
    · rcases rest with _ | ⟨b, rest'⟩
      · have hx : x = '"' := (by simpa using hm : '"' = x).symm
        subst hx
        exact absurd hg (by decide)
      · rw [gcB] at hg
        by_cases hx1 : x = '"'
        · rw [if_pos hx1] at hg
          exact absurd hg (by simp)
        · rw [if_neg hx1] at hg
          by_cases hx2 : x = '\\'
          · rw [if_pos hx2] at hg
            by_cases hb : b = '"'
            · subst hx2
              subst hb
              exact ⟨[], rest', rfl, by simp, by rwa [if_pos rfl] at hg⟩
            · rw [if_neg hb] at hg
              subst hx2
              have hm' : '"' ∈ b :: rest' := by
                rcases List.mem_cons.mp hm with h1 | h1
                · exact absurd h1 (by decide)
                · exact h1
              obtain ⟨a', b', heq, hna, hgb⟩ := ih (b :: rest') (by simp at hl ⊢; omega) hg hm'
              refine ⟨'\\' :: a', b', by simp [heq], ?_, hgb⟩
              intro hq
              rcases List.mem_cons.mp hq with h1 | h1
              · exact absurd h1 (by decide)
              · exact hna h1
          · rw [if_neg hx2] at hg
            have hm' : '"' ∈ b :: rest' := by
              rcases List.mem_cons.mp hm with h1 | h1
              · exact absurd h1.symm hx1
              · exact h1
            obtain ⟨a', b', heq, hna, hgb⟩ := ih (b :: rest') (by simp at hl ⊢; omega) hg hm'
            refine ⟨x :: a', b', by simp [heq], ?_, hgb⟩
            intro hq
            rcases List.mem_cons.mp hq with h1 | h1
            · exact absurd h1.symm hx1
            · exact hna h1

theorem gcB_decomp {c : List Char} (hg : gcB c = true) (hm : '"' ∈ c) :
    ∃ a b, c = a ++ '\\' :: '"' :: b ∧ '"' ∉ a ∧ gcB b = true :=
  gcB_decomp_aux c.length c (Nat.le_refl _) hg hm
-- the content-end scan finds exactly the closing quote of a well-formed value

theorem contentScan_ok :
    ∀ (n : Nat), ∀ (c : List Char), c.length ≤ n → gcB c = true →
      ∀ (json pre post : List Char) (fuel : Nat),
        json = pre ++ (c ++ '"' :: post) →
        c.length < fuel →
        1 ≤ pre.length →
        pre.getLast? ≠ some '\\' →
        contentEndLoop json fuel pre.length = Except.ok (some (pre.length + c.length)) := by
  intro n
  induction n using Nat.strong_induction_on with
  | _ n ih =>
    intro c hl hg json pre post fuel hjson hfuel hpre hlast
    obtain ⟨f, rfl⟩ : ∃ f, fuel = f + 1 := ⟨fuel - 1, by omega⟩
    have hlenjson : json.length = pre.length + c.length + post.length + 1 := by
      rw [hjson]
      simp [List.length_append]
      omega
    have hdrop : json.drop pre.length = c ++ '"' :: post := by
      rw [hjson, List.drop_left]
    rw [contentEndLoop, if_pos (by omega : pre.length < json.length)]
    cases hq : charIdx '"' c with
    | none =>
      have hmem : '"' ∉ c := charIdx_eq_none_iff.mp hq
      have hfind : charIdxFrom json '"' pre.length = some (c.length + pre.length) := by
        rw [charIdxFrom, hdrop, charIdx_append_self _ hmem]
        rfl
      rw [hfind]
      dsimp only
      rw [if_neg (by omega : ¬ c.length + pre.length = 0)]
      have hread : json[(c.length + pre.length) - 1]? = (pre ++ c).getLast? := by
        rw [hjson, show pre ++ (c ++ '"' :: post) = (pre ++ c) ++ '"' :: post from by
          simp [List.append_assoc]]
        rw [List.getElem?_append, if_pos (by simp [List.length_append]; omega)]
        rw [show c.length + pre.length - 1 = (pre ++ c).length - 1 from by
          simp [List.length_append]; omega]
        exact (List.getLast?_eq_getElem? _).symm
      rw [hread]
      have hlastc : (pre ++ c).getLast? ≠ some '\\' := by
        cases hcc : c with
        | nil => simpa using hlast
        | cons c0 cr =>
          rw [List.getLast?_append_of_ne_nil _ (by simp : (c0 :: cr : List Char) ≠ [])]
          rw [← hcc]
          exact gcB_getLast hg (by rw [hcc]; simp)
      cases hgl : (pre ++ c).getLast? with
      | none =>
        exfalso
        rw [List.getLast?_eq_none_iff] at hgl
        have hz : (pre ++ c).length = 0 := by rw [hgl]; rfl
        rw [List.length_append] at hz
        omega
      | some ch =>
        dsimp only
        rw [if_neg (by
          intro he
          rw [he] at hgl
          exact hlastc hgl)]
        rw [Nat.add_comm]
    | some k =>
      have hmem : '"' ∈ c := by
        obtain ⟨t1, t2, heq, _, _⟩ := charIdx_some_decomp hq
        rw [heq]
        simp
      obtain ⟨a, b, hcab, hna, hgb⟩ := gcB_decomp hg hmem
      subst hcab
      have hsplit : (a ++ '\\' :: '"' :: b) ++ '"' :: post
          = (a ++ [ '\\' ]) ++ '"' :: (b ++ '"' :: post) := by
        simp [List.append_assoc]
      have hna' : '"' ∉ a ++ [ '\\' ] := by
        intro hmm
        rcases List.mem_append.mp hmm with h1 | h1
        · exact hna h1
        · simp at h1
      have hfind : charIdxFrom json '"' pre.length = some ((a.length + 1) + pre.length) := by
        rw [charIdxFrom, hdrop, hsplit, charIdx_append_self _ hna']
        simp [List.length_append]
      rw [hfind]
      dsimp only
      rw [if_neg (by omega : ¬ (a.length + 1) + pre.length = 0)]
      have hread : json[((a.length + 1) + pre.length) - 1]? = some '\\' := by
        rw [hjson, show pre ++ ((a ++ '\\' :: '"' :: b) ++ '"' :: post)
              = (pre ++ a) ++ '\\' :: ('"' :: b ++ '"' :: post) from by
          simp [List.append_assoc]]
        rw [show (a.length + 1) + pre.length - 1 = (pre ++ a).length from by
          simp [List.length_append]; omega]
        rw [List.getElem?_append, if_neg (by omega)]
        simp
      rw [hread]
      dsimp only
      rw [if_pos rfl]
      have harith : (a.length + 1) + pre.length + 1 = (pre ++ (a ++ [ '\\', '"' ])).length := by
        simp [List.length_append]
        omega
      have hre : json = (pre ++ (a ++ [ '\\', '"' ])) ++ (b ++ '"' :: post) := by
        rw [hjson]
        simp [List.append_assoc]
      have hclen : (a ++ '\\' :: '"' :: b).length = a.length + b.length + 2 := by
        simp [List.length_append]
        omega
      have hrec := ih (n - 1) (by omega : n - 1 < n) b
        (by rw [hclen] at hl; omega) hgb json (pre ++ (a ++ [ '\\', '"' ])) post f hre
        (by rw [hclen] at hfuel; omega)
        (by simp [List.length_append]; omega)
        (by
          rw [List.getLast?_append_of_ne_nil _ (by simp : (a ++ [ '\\', '"' ] : List Char) ≠ [])]
          rw [List.getLast?_append_of_ne_nil _ (by simp : ([ '\\', '"' ] : List Char) ≠ [])]
          decide)
      rw [harith, hrec]
      have : (pre ++ (a ++ [ '\\', '"' ])).length + b.length
          = pre.length + (a ++ '\\' :: '"' :: b).length := by
        simp [List.length_append]
        omega
      rw [this]
-- the index-based escape-replacement loop computes the structural single pass

theorem strIdx_cons_none {pat : List Char} {a : Char} {rest : List Char}
    (h : strIdx pat (a :: rest) = none) :
    strPrefixOf pat (a :: rest) = false ∧ strIdx pat rest = none := by
  by_cases hp : strPrefixOf pat (a :: rest) = true
  · rw [strIdx, if_pos hp] at h
    exact absurd h (by simp)
  · refine ⟨by simpa using hp, ?_⟩
    rw [strIdx, if_neg hp] at h
    exact Option.map_eq_none'.mp h

theorem strIdx_some_decomp2 {x : Char} :
    ∀ {s : List Char} {q : Nat}, strIdx [ '\\', x ] s = some q →
      ∃ t1 t2, s = t1 ++ '\\' :: x :: t2 ∧ t1.length = q ∧ strIdx [ '\\', x ] t1 = none := by
  intro s
  induction s with
  | nil => intro q h; simp [strIdx] at h
  | cons a rest ih =>
    intro q h
    by_cases hp : strPrefixOf [ '\\', x ] (a :: rest) = true
    · rw [strIdx, if_pos hp] at h
      injection h with h
      subst h
      obtain ⟨t', ht'⟩ := @strPrefixOf_two_cons '\\' x [] _ hp
      exact ⟨[], t', by simpa using ht', rfl, rfl⟩
    · rw [strIdx, if_neg hp] at h
      obtain ⟨q', hq', rfl⟩ := Option.map_eq_some'.mp h
      obtain ⟨t1, t2, heq, hlen, hnone⟩ := ih hq'
      refine ⟨a :: t1, t2, by simp [heq], by simp [hlen], ?_⟩
      have hnp : ¬ strPrefixOf [ '\\', x ] (a :: t1) = true := by
        intro hcon
        refine hp ?_
        have hext := strPrefixOf_append ('\\' :: x :: t2) hcon
        rw [heq]
        simpa using hext
      rw [strIdx, if_neg hnp, hnone]
      rfl

theorem replaceEsc_no_occ {x y : Char} :
    ∀ {s : List Char}, strIdx [ '\\', x ] s = none → replaceEsc x y s = s := by
  intro s
  induction s with
  | nil => intro _; rfl
  | cons a rest ih =>
    intro h
    obtain ⟨hpf, hnone⟩ := strIdx_cons_none h
    cases rest with
    | nil => rfl
    | cons b rest2 =>
      rw [replaceEsc]
      have hcond : (a = '\\' && b = x) = false := by
        by_contra hc
        rw [Bool.not_eq_false, Bool.and_eq_true, decide_eq_true_eq, decide_eq_true_eq] at hc
        simp [strPrefixOf, hc.1, hc.2] at hpf
      rw [if_neg (by simp [hcond]), ih hnone]

theorem replaceEsc_split {x y : Char} (hx : x ≠ '\\') :
    ∀ (t1 t2 : List Char), strIdx [ '\\', x ] t1 = none →
      replaceEsc x y (t1 ++ '\\' :: x :: t2) = t1 ++ y :: replaceEsc x y t2 := by
  intro t1
  induction t1 with
  | nil =>
    intro t2 _
    simp [replaceEsc]
  | cons a t1' ih =>
    intro t2 hnone
    obtain ⟨hpf, hnone'⟩ := strIdx_cons_none hnone
    cases t1' with
    | nil =>
      show replaceEsc x y (a :: '\\' :: x :: t2) = a :: y :: replaceEsc x y t2
      rw [replaceEsc]
      have hcond : (a = '\\' && '\\' = x) = false := by
        have : ('\\' = x) = False := by
          simp [Ne.symm hx]
        simp [this]
      rw [if_neg (by simp [hcond])]
      simp [replaceEsc]
    | cons b t1'' =>
      show replaceEsc x y (a :: b :: (t1'' ++ '\\' :: x :: t2))
          = a :: ((b :: t1'') ++ y :: replaceEsc x y t2)
      rw [replaceEsc]
      have hcond : (a = '\\' && b = x) = false := by
        by_contra hc
        rw [Bool.not_eq_false, Bool.and_eq_true, decide_eq_true_eq, decide_eq_true_eq] at hc
        simp [strPrefixOf, hc.1, hc.2] at hpf
      rw [if_neg (by simp [hcond])]
      show a :: replaceEsc x y ((b :: t1'') ++ '\\' :: x :: t2) = _
      rw [ih t2 hnone']

theorem replLoopE_eq (x y : Char) (hx : x ≠ '\\') :
    ∀ (n : Nat), ∀ (todo done : List Char), todo.length ≤ n →
    ∀ (fuel : Nat), todo.length < fuel →
      replLoopE x y fuel (done ++ todo) done.length
        = Except.ok (done ++ replaceEsc x y todo) := by
  intro n
  induction n using Nat.strong_induction_on with
  | _ n ih =>
    intro todo done hle fuel hfuel
    obtain ⟨f, rfl⟩ : ∃ f, fuel = f + 1 := ⟨fuel - 1, by omega⟩
    rw [replLoopE]
    have hdropX : strIdxFrom (done ++ todo) [ '\\', x ] done.length
        = (strIdx [ '\\', x ] todo).map (· + done.length) := by
      rw [strIdxFrom, List.drop_left]
    cases hq : strIdx [ '\\', x ] todo with
    | none =>
      rw [hdropX, hq]
      simp only [Option.map_none']
      rw [replaceEsc_no_occ hq]
    | some q =>
      obtain ⟨t1, t2, rfl, hlen, hnone⟩ := strIdx_some_decomp2 hq
      have hlt : (t1 ++ '\\' :: x :: t2).length = t1.length + t2.length + 2 := by
        simp [List.length_append]
        omega
      rw [hdropX, hq]
      simp only [Option.map_some']
      have htake : (done ++ (t1 ++ '\\' :: x :: t2)).take (q + done.length) = done ++ t1 := by
        rw [show done ++ (t1 ++ '\\' :: x :: t2) = (done ++ t1) ++ '\\' :: x :: t2 from by
          simp [List.append_assoc]]
        rw [show q + done.length = (done ++ t1).length from by
          simp [List.length_append]; omega]
        exact List.take_left _ _
      have hdrop2 : (done ++ (t1 ++ '\\' :: x :: t2)).drop ((q + done.length) + 2) = t2 := by
        rw [show done ++ (t1 ++ '\\' :: x :: t2) = ((done ++ t1) ++ [ '\\', x ]) ++ t2 from by
          simp [List.append_assoc]]
        rw [show (q + done.length) + 2 = ((done ++ t1) ++ [ '\\', x ]).length from by
          simp [List.length_append]; omega]
        exact List.drop_left _ _
      rw [htake, hdrop2]
      have hrec := ih (n - 1) (by omega) t2 ((done ++ t1) ++ [y])
        (by omega) f (by omega)
      rw [show (done ++ t1) ++ y :: t2 = ((done ++ t1) ++ [y]) ++ t2 from by
        simp [List.append_assoc]]
      rw [show (q + done.length) + 1 = ((done ++ t1) ++ [y]).length from by
        simp [List.length_append]; omega]
      rw [hrec]
      rw [replaceEsc_split hx t1 t2 hnone]
      simp [List.append_assoc]

theorem unescapeContentE_eq (c : List Char) :
    unescapeContentE c = Except.ok (unescapePure c) := by
  have h1 := replLoopE_eq 'n' '\n' (by decide) c.length c [] (Nat.le_refl _)
    (c.length + 1) (by omega)
  simp only [List.nil_append, List.length_nil] at h1
  have h2 := replLoopE_eq '"' '"' (by decide) (replaceEsc 'n' '\n' c).length
    (replaceEsc 'n' '\n' c) [] (Nat.le_refl _) ((replaceEsc 'n' '\n' c).length + 1) (by omega)
  simp only [List.nil_append, List.length_nil] at h2
  rw [unescapeContentE, h1]
  dsimp only
  rw [h2, unescapePure]
-- one object-loop iteration on a serialized role/content object

theorem msgObj_step (pre r c rest : List Char) (fuel : Nat) (acc : List ChatMessage)
    (hr : '"' ∉ r) (hc : gcB c = true) (hpre : 1 ≤ pre.length) :
    msgLoop (pre ++ (mkMsg r c ++ rest)) (fuel + 1) (some pre.length) acc
      = msgLoop (pre ++ (mkMsg r c ++ rest)) fuel
          ((charIdx '{' rest).map (· + (pre.length + (24 + (r.length + c.length)))))
          (acc ++ [⟨r, unescapePure c⟩]) := by
  have hkey1 : ("\"role\":\"").data = roleKey ++ ':' :: '"' :: [] := by decide
  have hshape1 : mkMsg r c ++ rest
      = '{' :: (roleKey ++ (':' :: '"' :: (r ++ (msgMid ++ (c ++ ('"' :: '}' :: rest)))))) := by
    rw [mkMsg, msgHead, hkey1, msgEnd]
    simp [List.append_assoc]
  have hpf1 : ¬ strPrefixOf roleKey ('{' :: (roleKey ++ (':' :: '"' :: (r ++ (msgMid ++ (c ++ ('"' :: '}' :: rest))))))) = true := by
    rw [show roleKey = '"' :: ("role\"").data from rfl]
    simp [strPrefixOf]
  have hrolePos : strIdxFrom (pre ++ (mkMsg r c ++ rest)) roleKey pre.length
      = some (pre.length + 1) := by
    rw [strIdxFrom, List.drop_left, hshape1, strIdx, if_neg hpf1]
    rw [strIdx_prefix_zero (by rw [show roleKey = '"' :: ("role\"").data from rfl]; simp)
      (strPrefixOf_append _ (strPrefixOf_refl roleKey))]
    simp only [Option.map_some', Option.some.injEq]
    omega
  have hshape2 : mkMsg r c ++ rest
      = ('{' :: roleKey) ++ (':' :: '"' :: (r ++ (msgMid ++ (c ++ ('"' :: '}' :: rest))))) := by
    rw [hshape1]
    simp
  have hqrole : charIdxFrom (pre ++ (mkMsg r c ++ rest)) '"' (pre.length + 7)
      = some (pre.length + 8) := by
    rw [charIdxFrom, drop_append_add, hshape2,
      List.drop_left' (by decide : ('{' :: roleKey : List Char).length = 7)]
    rw [charIdx, if_neg (by decide : ¬ (':' : Char) = '"'), charIdx, if_pos rfl]
    simp only [Option.map_some', Option.some.injEq]
    omega
  have hshape3 : mkMsg r c ++ rest
      = msgHead ++ (r ++ (msgMid ++ (c ++ ('"' :: '}' :: rest)))) := by
    rw [mkMsg, msgEnd]
    simp [List.append_assoc]
  have hmidcons : msgMid = '"' :: (",\"content\":\"").data := rfl
  have hroleEnd : charIdxFrom (pre ++ (mkMsg r c ++ rest)) '"' (pre.length + 9)
      = some (pre.length + (9 + r.length)) := by
    rw [charIdxFrom, drop_append_add, hshape3,
      List.drop_left' (by decide : msgHead.length = 9)]
    rw [hmidcons, show r ++ ('"' :: (",\"content\":\"").data ++ (c ++ ('"' :: '}' :: rest)))
          = r ++ '"' :: ((",\"content\":\"").data ++ (c ++ ('"' :: '}' :: rest))) from by simp]
    rw [charIdx_append_self _ hr]
    simp only [Option.map_some', Option.some.injEq]
    omega
  have hsubRole : substrTo (pre ++ (mkMsg r c ++ rest)) (pre.length + 9)
      (some (pre.length + (9 + r.length))) = r := by
    rw [substrTo]
    rw [show pre.length + (9 + r.length) - (pre.length + 9) = r.length from by omega]
    rw [drop_append_add, hshape3, List.drop_left' (by decide : msgHead.length = 9)]
    exact List.take_left _ _
  have hkey2 : (("\",").data) ++ contentKey ++ (':' :: '"' :: []) = msgMid := by decide
  have hmidsplit : ∀ (Z : List Char), msgMid ++ Z
      = '"' :: ',' :: (contentKey ++ (':' :: '"' :: Z)) := by
    intro Z
    rw [← hkey2]
    simp [List.append_assoc]
  have hcontentPos : strIdxFrom (pre ++ (mkMsg r c ++ rest)) contentKey (pre.length + (9 + r.length))
      = some (pre.length + (11 + r.length)) := by
    rw [strIdxFrom, show pre.length + (9 + r.length) = pre.length + (9 + r.length) from rfl]
    rw [drop_append_add, hshape3]
    rw [show msgHead ++ (r ++ (msgMid ++ (c ++ ('"' :: '}' :: rest))))
          = (msgHead ++ r) ++ (msgMid ++ (c ++ ('"' :: '}' :: rest))) from by
        simp [List.append_assoc]]
    rw [List.drop_left' (by
      simp only [List.length_append]
      have h9 : msgHead.length = 9 := by decide
      omega)]
    rw [hmidsplit]
    rw [strIdx, if_neg (by
      rw [show contentKey = '"' :: 'c' :: ("ontent\"").data from rfl]
      simp [strPrefixOf])]
    rw [strIdx, if_neg (by
      rw [show contentKey = '"' :: 'c' :: ("ontent\"").data from rfl]
      simp [strPrefixOf])]
    rw [strIdx_prefix_zero (by
        rw [show contentKey = '"' :: 'c' :: ("ontent\"").data from rfl]
        simp)
      (strPrefixOf_append _ (strPrefixOf_refl contentKey))]
    simp only [Option.map_some', Option.some.injEq]
    omega
  have hkey3 : (("\",").data) ++ contentKey = ("\",\"content\"").data := by decide
  have hshape4 : mkMsg r c ++ rest
      = ((msgHead ++ r) ++ ("\",\"content\"").data) ++ (':' :: '"' :: (c ++ ('"' :: '}' :: rest))) := by
    rw [hshape3, ← hkey3, ← hkey2]
    simp [List.append_assoc]
  have hqcontent : charIdxFrom (pre ++ (mkMsg r c ++ rest)) '"' (pre.length + (20 + r.length))
      = some (pre.length + (21 + r.length)) := by
    rw [charIdxFrom, drop_append_add, hshape4]
    rw [List.drop_left' (by
      rw [List.length_append, List.length_append,
        show msgHead.length = 9 from by decide,
        show (("\",\"content\"").data).length = 11 from by decide]
      omega)]
    rw [charIdx, if_neg (by decide : ¬ (':' : Char) = '"'), charIdx, if_pos rfl]
    simp only [Option.map_some', Option.some.injEq]
    omega
  have hlenpreC : (pre ++ (msgHead ++ (r ++ msgMid))).length = pre.length + (22 + r.length) := by
    simp only [List.length_append]
    have h9 : msgHead.length = 9 := by decide
    have h13 : msgMid.length = 13 := by decide
    omega
  have hJre : pre ++ (mkMsg r c ++ rest)
      = (pre ++ (msgHead ++ (r ++ msgMid))) ++ (c ++ '"' :: ('}' :: rest)) := by
    rw [mkMsg, msgEnd]
    simp [List.append_assoc]
  have hlenJ : (pre ++ (mkMsg r c ++ rest)).length
      = pre.length + (24 + (r.length + c.length)) + rest.length := by
    rw [hJre, List.length_append, hlenpreC, List.length_append,
      List.length_cons, List.length_cons]
    omega
  have hscan : contentEndLoop (pre ++ (mkMsg r c ++ rest))
      ((pre ++ (mkMsg r c ++ rest)).length + 2) ((pre ++ (msgHead ++ (r ++ msgMid))).length)
      = Except.ok (some ((pre ++ (msgHead ++ (r ++ msgMid))).length + c.length)) := by
    refine contentScan_ok c.length c (Nat.le_refl _) hc _ _ ('}' :: rest) _ hJre ?_ ?_ ?_
    · omega
    · rw [hlenpreC]; omega
    · rw [show pre ++ (msgHead ++ (r ++ msgMid)) = (pre ++ (msgHead ++ r)) ++ msgMid from by
        simp [List.append_assoc]]
      rw [List.getLast?_append_of_ne_nil _ (by decide : (msgMid : List Char) ≠ [])]
      decide
  have hsubC : substrTo (pre ++ (mkMsg r c ++ rest)) ((pre ++ (msgHead ++ (r ++ msgMid))).length)
      (some ((pre ++ (msgHead ++ (r ++ msgMid))).length + c.length)) = c := by
    rw [substrTo]
    rw [show (pre ++ (msgHead ++ (r ++ msgMid))).length + c.length
          - (pre ++ (msgHead ++ (r ++ msgMid))).length = c.length from by omega]
    rw [hJre, List.drop_left]
    exact List.take_left _ _
  have hnext : charIdxFrom (pre ++ (mkMsg r c ++ rest)) '{'
      ((pre ++ (msgHead ++ (r ++ msgMid))).length + c.length)
      = (charIdx '{' rest).map (· + (pre.length + (24 + (r.length + c.length)))) := by
    rw [charIdxFrom]
    rw [show pre ++ (mkMsg r c ++ rest)
          = ((pre ++ (msgHead ++ (r ++ msgMid))) ++ c) ++ ('"' :: '}' :: rest) from by
        rw [hJre]; simp [List.append_assoc]]
    rw [List.drop_left' (List.length_append _ _)]
    rw [charIdx, if_neg (by decide : ¬ ('"' : Char) = '{'),
      charIdx, if_neg (by decide : ¬ ('}' : Char) = '{')]
    cases hk : charIdx '{' rest with
    | none => simp
    | some k =>
      simp only [Option.map_some', Option.some.injEq]
      rw [hlenpreC]
      omega
  -- now walk the loop body
  rw [msgLoop]
  rw [hrolePos]
  dsimp only
  rw [show pre.length + 1 + 6 = pre.length + 7 from by omega]
  rw [hqrole]
  simp only [wrapInc]
  rw [show pre.length + 8 + 1 = pre.length + 9 from by omega]
  rw [hroleEnd]
  dsimp only
  rw [hcontentPos]
  dsimp only
  rw [show pre.length + (11 + r.length) + 9 = pre.length + (20 + r.length) from by omega]
  rw [hqcontent]
  simp only [wrapInc]
  rw [show pre.length + (21 + r.length) + 1 = (pre ++ (msgHead ++ (r ++ msgMid))).length from by
    rw [hlenpreC]; omega]
  rw [hscan]
  dsimp only
  rw [hsubC, unescapeContentE_eq c]
  dsimp only
  rw [hsubRole, hnext]
-- loop induction over serialized turns, and the C4 round-trip theorem

theorem mkMsg_length (r c : List Char) :
    (mkMsg r c).length = 24 + (r.length + c.length) := by
  rw [mkMsg]
  simp only [List.length_append]
  have h9 : msgHead.length = 9 := by decide
  have h13 : msgMid.length = 13 := by decide
  have h2 : msgEnd.length = 2 := by decide
  omega

theorem msgsTail_length_ge : ∀ ts : List (List Char × List Char),
    ts.length ≤ (msgsTail ts).length := by
  intro ts
  induction ts with
  | nil => decide
  | cons t ts ih =>
    cases ts with
    | nil =>
      rw [show msgsTail [t] = mkMsg t.1 t.2 ++ [ ']' ] from rfl]
      simp only [List.length_append, List.length_cons, List.length_nil, mkMsg_length]
      omega
    | cons t2 ts' =>
      rw [show msgsTail (t :: t2 :: ts') = mkMsg t.1 t.2 ++ (',' :: msgsTail (t2 :: ts')) from rfl]
      simp only [List.length_append, List.length_cons, mkMsg_length]
      simp only [List.length_cons] at ih
      omega

theorem msgLoop_serialized : ∀ (ts : List (List Char × List Char)) (pre : List Char)
    (acc : List ChatMessage) (fuel : Nat),
    (∀ p ∈ ts, '"' ∉ p.1 ∧ gcB p.2 = true) → 1 ≤ pre.length → ts.length ≤ fuel →
    msgLoop (pre ++ msgsTail ts) fuel ((charIdx '{' (msgsTail ts)).map (· + pre.length)) acc
      = Except.ok (acc ++ ts.map fun p => ⟨p.1, unescapePure p.2⟩) := by
  intro ts
  induction ts with
  | nil =>
    intro pre acc fuel _ _ _
    rw [show charIdx '{' (msgsTail []) = none from rfl]
    rw [show (Option.map (· + pre.length) none : Option Nat) = none from rfl]
    rw [msgLoop]
    simp
  | cons t ts ih =>
    intro pre acc fuel h hpre hfuel
    cases fuel with
    | zero => simp at hfuel
    | succ fuel =>
      cases hts : ts with
      | nil =>
        rw [show msgsTail [t] = mkMsg t.1 t.2 ++ [ ']' ] from rfl]
        rw [show mkMsg t.1 t.2 ++ [ ']' ] = '{' :: (("\"role\":\"").data ++ t.1 ++ msgMid ++ t.2 ++ msgEnd ++ [ ']' ]) from by
          rw [mkMsg, msgHead]; simp [List.append_assoc]]
        rw [charIdx, if_pos rfl]
        rw [show (Option.map (· + pre.length) (some 0) : Option Nat) = some pre.length from by
          simp]
        rw [show '{' :: (("\"role\":\"").data ++ t.1 ++ msgMid ++ t.2 ++ msgEnd ++ [ ']' ])
              = mkMsg t.1 t.2 ++ [ ']' ] from by rw [mkMsg, msgHead]; simp [List.append_assoc]]
        have h1 := h t (by simp)
        rw [msgObj_step pre t.1 t.2 [ ']' ] fuel acc h1.1 h1.2 hpre]
        rw [show charIdx '{' [ ']' ] = none from rfl]
        rw [show (Option.map (· + (pre.length + (24 + (t.1.length + t.2.length)))) none : Option Nat) = none from rfl]
        rw [msgLoop]
        simp
      | cons t2 ts' =>
        subst hts
        rw [show msgsTail (t :: t2 :: ts') = mkMsg t.1 t.2 ++ (',' :: msgsTail (t2 :: ts')) from rfl]
        rw [show mkMsg t.1 t.2 ++ (',' :: msgsTail (t2 :: ts'))
              = '{' :: (("\"role\":\"").data ++ t.1 ++ msgMid ++ t.2 ++ msgEnd ++ (',' :: msgsTail (t2 :: ts'))) from by
          rw [mkMsg, msgHead]; simp [List.append_assoc]]
        rw [charIdx, if_pos rfl]
        rw [show (Option.map (· + pre.length) (some 0) : Option Nat) = some pre.length from by
          simp]
        rw [show '{' :: (("\"role\":\"").data ++ t.1 ++ msgMid ++ t.2 ++ msgEnd ++ (',' :: msgsTail (t2 :: ts')))
              = mkMsg t.1 t.2 ++ (',' :: msgsTail (t2 :: ts')) from by
          rw [mkMsg, msgHead]; simp [List.append_assoc]]
        have h1 := h t (by simp)
        rw [msgObj_step pre t.1 t.2 (',' :: msgsTail (t2 :: ts')) fuel acc h1.1 h1.2 hpre]
        have hre : pre ++ (mkMsg t.1 t.2 ++ (',' :: msgsTail (t2 :: ts')))
            = (pre ++ mkMsg t.1 t.2 ++ [ ',' ]) ++ msgsTail (t2 :: ts') := by
          simp [List.append_assoc]
        have hpos : (charIdx '{' (',' :: msgsTail (t2 :: ts'))).map
              (· + (pre.length + (24 + (t.1.length + t.2.length))))
            = (charIdx '{' (msgsTail (t2 :: ts'))).map
              (· + (pre ++ mkMsg t.1 t.2 ++ [ ',' ]).length) := by
          rw [charIdx, if_neg (by decide : ¬ (',' : Char) = '{')]
          cases hk : charIdx '{' (msgsTail (t2 :: ts')) with
          | none => simp
          | some k =>
            simp only [Option.map_some', Option.some.injEq]
            simp only [List.length_append, List.length_cons, List.length_nil, mkMsg_length]
            omega
        rw [hre, hpos]
        rw [ih (pre ++ mkMsg t.1 t.2 ++ [ ',' ]) (acc ++ [ChatMessage.mk t.1 (unescapePure t.2)]) fuel
          (fun p hp => h p (by simp [hp]))
          (by simp only [List.length_append, List.length_cons, List.length_nil]; omega)
          (by simp only [List.length_cons] at hfuel ⊢; omega)]
        simp

/-- Claim C4: round-trip through the message decoder.  For every list of
turns whose roles contain no quote character and whose raw contents are
well-formed escaped values (`gcB`), decoding the serialised chat array
recovers exactly the same turns in order, with each content unescaped
(`\"` → `"` and `\n` → newline) and roles byte-identical. -/
theorem c4_theorem (ts : List (List Char × List Char))
    (h : ∀ p ∈ ts, '"' ∉ p.1 ∧ gcB p.2 = true) :
    parse_messages_json (mkJson ts)
      = Except.ok (ts.map fun p => ⟨p.1, unescapePure p.2⟩) := by
  rw [parse_messages_json, parse_messages_json_fuel, mkJson]
  have h0 : charIdxFrom ('[' :: msgsTail ts) '[' 0 = some 0 := by
    rw [charIdxFrom]
    simp only [List.drop_zero]
    rw [charIdx, if_pos rfl]
    simp
  rw [h0]
  dsimp only
  have h1 : charIdxFrom ('[' :: msgsTail ts) '{' 0
      = (charIdx '{' (msgsTail ts)).map (· + ([ '[' ] : List Char).length) := by
    rw [charIdxFrom]
    simp only [List.drop_zero]
    rw [charIdx, if_neg (by decide : ¬ ('[' : Char) = '{')]
    cases hk : charIdx '{' (msgsTail ts) with
    | none => simp
    | some k => simp
  rw [h1]
  rw [show ('[' :: msgsTail ts : List Char) = [ '[' ] ++ msgsTail ts from rfl]
  rw [msgLoop_serialized ts [ '[' ] [] (([ '[' ] ++ msgsTail ts : List Char).length + 1) h
    (by decide)
    (by
      have := msgsTail_length_ge ts
      simp only [List.length_append, List.length_cons, List.length_nil]
      omega)]
  simp

theorem c4_witness :
    parse_messages_json (mkJson
        [((("user").data), (("line1\\nline2").data)),
         ((("assistant").data), (("say \\\"hi\\\"").data))])
      = Except.ok
        [⟨("user").data, ("line1\nline2").data⟩,
         ⟨("assistant").data, ("say \"hi\"").data⟩] :=
  (c4_theorem
    [((("user").data), (("line1\\nline2").data)),
     ((("assistant").data), (("say \\\"hi\\\"").data))]
    (by decide)).trans (by decide)
end CactusFFI
